import Mathlib

/-!
Verification of the go-qrcode encoding core (github.com/RashadAnsari/go-qrcode).

This file shallowly embeds the parts of the Go source needed to settle the
claims about the encoder: the bit buffer (`internal/bitset/bitset.go`), the
GF(256) polynomial arithmetic and Reed-Solomon encoder
(`internal/reedsolomon`), the symbol grid with its four penalty rules
(`symbol.go`), the segment classifier and data encoder (`encoder.go`), and
the top-level `encode` driver (`qrcode.go`).

Modelling conventions:
* A `Bitset` is modelled by its logical bit sequence (a `List Bool`,
  most-significant-first), abstracting the byte-packed storage whose
  invariant is that only the first `numBits` bits are meaningful.
* Go machine integers are modelled as `Nat` (with explicit `% 256` where the
  Go code casts to `byte`), and `Int` where a Go value can go negative.
* Fallible Go functions returning `(T, error)` are modelled as
  `Except String T`.
* Go `while` loops whose bound is not structural are modelled with explicit
  fuel; every use either supplies provably sufficient fuel or is guarded by
  a success hypothesis.
* The files `gf.go`, `version.go` and `regular_symbol.go` of the repository
  are not part of the provided sources; where needed they are modelled from
  the specification (marked `Modelled from the spec:`) or abstracted as
  universally quantified parameters.
-/

set_option maxRecDepth 4096

/-! ## Bitset (internal/bitset/bitset.go), modelled as its logical bit sequence -/

/-- The logical content of a `bitset.Bitset`: the sequence of its `numBits`
stored bits, most significant first. -/
abbrev Bitset := List Bool

/-- `Bitset.Len`: the number of stored bits. -/
def bsLen (b : Bitset) : ℕ := List.length b

/-- `Bitset.At`: read a single bit; total variant. The Go method returns an
error for an out-of-range index; in every embedded caller the index is
guarded, so we use the default `false` and keep the bound explicit at the
call sites. -/
def bsAt (b : Bitset) (index : ℕ) : Bool := List.getD b index false

/-- `Bitset.ByteAt` (bitset.go lines 160-181): shift up to 8 bits starting at
bit `index` into a byte (`result <<= 1; result |= bit`), stopping early at the
end of the buffer; error for an out-of-range start index. -/
def byteAt (b : Bitset) (index : ℕ) : Except String ℕ :=
  if index ≥ bsLen b then Except.error "index out of range"
  else Except.ok ((List.range (min 8 (bsLen b - index))).foldl
    (fun r j => 2 * r + (if bsAt b (index + j) then 1 else 0)) 0)

/-- The value of a bit sequence read most-significant-first
(`r := 2*r + bit`), used to state what `ByteAt` computes. -/
def bitsVal (l : List Bool) : ℕ :=
  l.foldl (fun r v => 2 * r + (if v then 1 else 0)) 0

lemma bitsVal_nil : bitsVal [] = 0 := rfl

lemma bitsVal_append_singleton (l : List Bool) (v : Bool) :
    bitsVal (l ++ [v]) = 2 * bitsVal l + (if v then 1 else 0) := by
  simp [bitsVal]

lemma bitsVal_lt (l : List Bool) : bitsVal l < 2 ^ l.length := by
  induction l using List.reverseRecOn with
  | nil => simp [bitsVal]
  | append_singleton xs x ih =>
      rw [bitsVal_append_singleton]
      simp only [List.length_append, List.length_singleton, pow_succ]
      cases x <;> simp <;> omega

lemma byteAt_foldl_eq_bitsVal (b : Bitset) (index : ℕ) : ∀ (k : ℕ),
    (List.range k).foldl (fun r j => 2 * r + (if bsAt b (index + j) then 1 else 0)) 0
      = bitsVal ((List.range k).map (fun j => bsAt b (index + j))) := by
  intro k
  induction k with
  | zero => rfl
  | succ n ih =>
      rw [List.range_succ, List.foldl_append, List.map_append, ih]
      simp [bitsVal_append_singleton]

/-- `ByteAt` in closed form: for an in-range index it succeeds and returns the
value of the available (up to 8) bits read MSB-first. -/
lemma byteAt_eq (b : Bitset) (index : ℕ) (h : index < bsLen b) :
    byteAt b index =
      Except.ok (bitsVal ((List.range (min 8 (bsLen b - index))).map
        (fun j => bsAt b (index + j)))) := by
  unfold byteAt
  rw [if_neg (by omega), byteAt_foldl_eq_bitsVal]

lemma byteAt_lt (b : Bitset) (index v : ℕ) (h : byteAt b index = Except.ok v) :
    v < 2 ^ (min 8 (bsLen b - index)) := by
  unfold byteAt at h
  split at h
  · exact absurd h (by simp)
  · rw [byteAt_foldl_eq_bitsVal] at h
    obtain rfl : v = _ := (Except.ok.injEq _ _).mp h.symm
    have := bitsVal_lt ((List.range (min 8 (bsLen b - index))).map
      (fun j => bsAt b (index + j)))
    simpa using this

lemma byteAt_lt_256 (b : Bitset) (index v : ℕ) (h : byteAt b index = Except.ok v) :
    v < 256 := by
  have h1 := byteAt_lt b index v h
  have h2 : (2 : ℕ) ^ (min 8 (bsLen b - index)) ≤ 2 ^ 8 :=
    Nat.pow_le_pow_right (by norm_num) (by omega)
  omega

/-- C7 counterexample input: a bit buffer holding the single bit `1`. -/
def oneBitBuffer : Bitset := [true]

/-- C7: the claim states that when fewer than 8 bits remain after position
`i`, the available bits occupy the MOST significant positions of the byte
returned by `byte_at(i)` (left alignment). On the one-bit buffer `[1]`,
`ByteAt(0)` would then be `0x80 = 128`; the code returns `1`: the bits are
right-aligned. -/
theorem c7_byteAt_counterexample :
    byteAt oneBitBuffer 0 = Except.ok 1 ∧ (1 : ℕ) ≠ 128 := by
  constructor
  · rfl
  · decide

/-- C7 (amended): for every bit buffer `b` and in-range index `i`, `ByteAt`
succeeds and shifts exactly `min 8 (len - i)` bits (all that remain, up to 8)
into the byte MSB-first; the result is RIGHT-aligned: the available bits
occupy the least significant positions, i.e. the result is below
`2 ^ (number of bits read)`. -/
theorem c7_byteAt_amended (b : Bitset) (i : ℕ) (h : i < bsLen b) :
    byteAt b i =
      Except.ok (bitsVal ((List.range (min 8 (bsLen b - i))).map
        (fun j => bsAt b (i + j)))) ∧
    ∀ v, byteAt b i = Except.ok v → v < 2 ^ (min 8 (bsLen b - i)) := by
  exact ⟨byteAt_eq b i h, fun v hv => byteAt_lt b i v hv⟩

/-- C7 witness: the amended theorem applied at the concrete buffer
`[1,0,1]` and index `1`. -/
theorem c7_byteAt_witness :
    byteAt [true, false, true] 1 =
      Except.ok (bitsVal ((List.range (min 8 (bsLen [true, false, true] - 1))).map
        (fun j => bsAt [true, false, true] (1 + j)))) ∧
    ∀ v, byteAt [true, false, true] 1 = Except.ok v →
      v < 2 ^ (min 8 (bsLen [true, false, true] - 1)) :=
  c7_byteAt_amended [true, false, true] 1 (by decide)

/-! ## GF(256) field (gf.go is absent from src; modelled from the spec) -/

/-- Modelled from the spec: `gf.go` (the `gfElement` type with its exp/log
tables) is absent from src. One multiplication by the primitive element α in
GF(2)[x]/(x⁸+x⁴+x³+x²+1): double and reduce by 0x11d = 285 when the result
reaches 256. -/
def gfMulAlpha (x : ℕ) : ℕ := if 256 ≤ 2 * x then 2 * x ^^^ 285 else 2 * x

/-- Modelled from the spec: the exp table, `exp[i] = αⁱ` for `0 ≤ i < 256`,
built by iterating `x := 1; x := x·α`. -/
def gfExpTable : List ℕ := (List.range 256).map (fun i => gfMulAlpha^[i] 1)

/-- Modelled from the spec: the log table, `log[exp[i]] = i` for each
`0 ≤ i < 256` in order (entries never hit stay 0). -/
def gfLogTable : List ℕ :=
  (List.range 256).foldl (fun acc i => acc.set (gfExpTable.getD i 0) i)
    (List.replicate 256 0)

def gfZero : ℕ := 0

def gfOne : ℕ := 1

def gfExp (i : ℕ) : ℕ := gfExpTable.getD i 0

def gfLog (v : ℕ) : ℕ := gfLogTable.getD v 0

/-- Modelled from the spec: GF(256) addition is XOR. -/
def gfAdd (a b : ℕ) : ℕ := a ^^^ b

/-- Modelled from the spec: GF(256) multiplication via the tables; zero if
either operand is zero. -/
def gfMultiply (a b : ℕ) : ℕ :=
  if a = 0 ∨ b = 0 then 0 else gfExp ((gfLog a + gfLog b) % 255)

/-- Modelled from the spec: GF(256) division via the tables; division by
zero is an error. -/
def gfDivide (a b : ℕ) : Except String ℕ :=
  if b = 0 then Except.error "divide by zero"
  else if a = 0 then Except.ok 0
  else Except.ok (gfExp ((gfLog a + 255 - gfLog b) % 255))

lemma gfExpTable_eq : gfExpTable = [1, 2, 4, 8, 16, 32, 64, 128, 29, 58, 116, 232, 205, 135, 19, 38, 76, 152, 45, 90, 180, 117, 234, 201, 143, 3, 6, 12, 24, 48, 96, 192, 157, 39, 78, 156, 37, 74, 148, 53, 106, 212, 181, 119, 238, 193, 159, 35, 70, 140, 5, 10, 20, 40, 80, 160, 93, 186, 105, 210, 185, 111, 222, 161, 95, 190, 97, 194, 153, 47, 94, 188, 101, 202, 137, 15, 30, 60, 120, 240, 253, 231, 211, 187, 107, 214, 177, 127, 254, 225, 223, 163, 91, 182, 113, 226, 217, 175, 67, 134, 17, 34, 68, 136, 13, 26, 52, 104, 208, 189, 103, 206, 129, 31, 62, 124, 248, 237, 199, 147, 59, 118, 236, 197, 151, 51, 102, 204, 133, 23, 46, 92, 184, 109, 218, 169, 79, 158, 33, 66, 132, 21, 42, 84, 168, 77, 154, 41, 82, 164, 85, 170, 73, 146, 57, 114, 228, 213, 183, 115, 230, 209, 191, 99, 198, 145, 63, 126, 252, 229, 215, 179, 123, 246, 241, 255, 227, 219, 171, 75, 150, 49, 98, 196, 149, 55, 110, 220, 165, 87, 174, 65, 130, 25, 50, 100, 200, 141, 7, 14, 28, 56, 112, 224, 221, 167, 83, 166, 81, 162, 89, 178, 121, 242, 249, 239, 195, 155, 43, 86, 172, 69, 138, 9, 18, 36, 72, 144, 61, 122, 244, 245, 247, 243, 251, 235, 203, 139, 11, 22, 44, 88, 176, 125, 250, 233, 207, 131, 27, 54, 108, 216, 173, 71, 142, 1] := by
  rfl

lemma gfLogTable_eq : gfLogTable = [0, 255, 1, 25, 2, 50, 26, 198, 3, 223, 51, 238, 27, 104, 199, 75, 4, 100, 224, 14, 52, 141, 239, 129, 28, 193, 105, 248, 200, 8, 76, 113, 5, 138, 101, 47, 225, 36, 15, 33, 53, 147, 142, 218, 240, 18, 130, 69, 29, 181, 194, 125, 106, 39, 249, 185, 201, 154, 9, 120, 77, 228, 114, 166, 6, 191, 139, 98, 102, 221, 48, 253, 226, 152, 37, 179, 16, 145, 34, 136, 54, 208, 148, 206, 143, 150, 219, 189, 241, 210, 19, 92, 131, 56, 70, 64, 30, 66, 182, 163, 195, 72, 126, 110, 107, 58, 40, 84, 250, 133, 186, 61, 202, 94, 155, 159, 10, 21, 121, 43, 78, 212, 229, 172, 115, 243, 167, 87, 7, 112, 192, 247, 140, 128, 99, 13, 103, 74, 222, 237, 49, 197, 254, 24, 227, 165, 153, 119, 38, 184, 180, 124, 17, 68, 146, 217, 35, 32, 137, 46, 55, 63, 209, 91, 149, 188, 207, 205, 144, 135, 151, 178, 220, 252, 190, 97, 242, 86, 211, 171, 20, 42, 93, 158, 132, 60, 57, 83, 71, 109, 65, 162, 31, 45, 67, 216, 183, 123, 164, 118, 196, 23, 73, 236, 127, 12, 111, 246, 108, 161, 59, 82, 41, 157, 85, 170, 251, 96, 134, 177, 187, 204, 62, 90, 203, 89, 95, 176, 156, 169, 160, 81, 11, 245, 22, 235, 122, 117, 44, 215, 79, 174, 213, 233, 230, 231, 173, 232, 116, 214, 244, 234, 168, 80, 88, 175] := by
  unfold gfLogTable
  rw [gfExpTable_eq]
  rfl

lemma gfExpTable_length : gfExpTable.length = 256 := by
  rw [gfExpTable_eq]; rfl

lemma gfLogTable_length : gfLogTable.length = 256 := by
  rw [gfLogTable_eq]; rfl

lemma gfExp_fact : ∀ i : Fin 256, gfExp i.val ≠ 0 ∧ gfExp i.val < 256 := by
  simp only [gfExp]
  rw [gfExpTable_eq]
  decide

lemma gfLog_fact : ∀ v : Fin 256, gfLog v.val ≤ 255 := by
  simp only [gfLog]
  rw [gfLogTable_eq]
  decide

lemma gfExp_gfLog_fact : ∀ v : Fin 256, v.val ≠ 0 → gfExp (gfLog v.val % 255) = v.val := by
  simp only [gfExp, gfLog]
  rw [gfExpTable_eq, gfLogTable_eq]
  decide

lemma gfLog_gfExp_fact : ∀ i : Fin 255, gfLog (gfExp i.val) % 255 = i.val := by
  simp only [gfExp, gfLog]
  rw [gfExpTable_eq, gfLogTable_eq]
  decide

lemma gfExp_ne_zero (i : ℕ) (h : i < 256) : gfExp i ≠ 0 :=
  (gfExp_fact ⟨i, h⟩).1

lemma gfExp_lt_256 (i : ℕ) : gfExp i < 256 := by
  by_cases h : i < 256
  · exact (gfExp_fact ⟨i, h⟩).2
  · unfold gfExp
    rw [List.getD_eq_default _ _ (by rw [gfExpTable_length]; omega)]
    norm_num

lemma gfLog_le_255 (v : ℕ) : gfLog v ≤ 255 := by
  by_cases h : v < 256
  · exact gfLog_fact ⟨v, h⟩
  · unfold gfLog
    rw [List.getD_eq_default _ _ (by rw [gfLogTable_length]; omega)]
    norm_num

lemma gfMultiply_zero_left (b : ℕ) : gfMultiply 0 b = 0 := by
  simp [gfMultiply]

lemma gfMultiply_zero_right (a : ℕ) : gfMultiply a 0 = 0 := by
  simp [gfMultiply]

lemma gfMultiply_lt_256 (a b : ℕ) : gfMultiply a b < 256 := by
  unfold gfMultiply
  split
  · norm_num
  · exact gfExp_lt_256 _

lemma gfMultiply_ne_zero (a b : ℕ) (ha : a ≠ 0) (hb : b ≠ 0) :
    gfMultiply a b ≠ 0 := by
  unfold gfMultiply
  rw [if_neg (by tauto)]
  exact gfExp_ne_zero _ (lt_trans (Nat.mod_lt _ (by norm_num)) (by norm_num))

lemma gfDivide_ok_of_ne_zero (a b : ℕ) (hb : b ≠ 0) :
    ∃ c, gfDivide a b = Except.ok c ∧ c < 256 := by
  unfold gfDivide
  rw [if_neg hb]
  by_cases ha : a = 0
  · exact ⟨0, by rw [if_pos ha], by norm_num⟩
  · exact ⟨_, by rw [if_neg ha], gfExp_lt_256 _⟩

lemma gfDivide_error_iff (a b : ℕ) :
    (∃ e, gfDivide a b = Except.error e) ↔ b = 0 := by
  unfold gfDivide
  constructor
  · intro ⟨e, he⟩
    by_contra hb
    rw [if_neg hb] at he
    split at he <;> simp at he
  · intro hb
    rw [if_pos hb]
    exact ⟨_, rfl⟩

/-- The key field fact used by polynomial long division: dividing and then
multiplying back by the (nonzero) divisor restores the dividend. -/
lemma gfMultiply_gfDivide_cancel (a b c : ℕ) (ha : a < 256) (hb : b < 256)
    (hb0 : b ≠ 0) (h : gfDivide a b = Except.ok c) : gfMultiply b c = a := by
  unfold gfDivide at h
  rw [if_neg hb0] at h
  by_cases ha0 : a = 0
  · rw [if_pos ha0] at h
    obtain rfl : c = 0 := by simpa using h.symm
    rw [gfMultiply_zero_right, ha0]
  · rw [if_neg ha0] at h
    obtain rfl : c = gfExp ((gfLog a + 255 - gfLog b) % 255) := by simpa using h.symm
    have hm : (gfLog a + 255 - gfLog b) % 255 < 255 := Nat.mod_lt _ (by norm_num)
    have hc0 : gfExp ((gfLog a + 255 - gfLog b) % 255) ≠ 0 :=
      gfExp_ne_zero _ (by omega)
    unfold gfMultiply
    rw [if_neg (by tauto)]
    have hlogc : gfLog (gfExp ((gfLog a + 255 - gfLog b) % 255)) % 255
        = (gfLog a + 255 - gfLog b) % 255 := gfLog_gfExp_fact ⟨_, hm⟩
    have hb255 : gfLog b ≤ 255 := gfLog_le_255 b
    calc gfExp ((gfLog b + gfLog (gfExp ((gfLog a + 255 - gfLog b) % 255))) % 255)
        = gfExp ((gfLog b % 255 + gfLog (gfExp ((gfLog a + 255 - gfLog b) % 255)) % 255) % 255) := by
          rw [← Nat.add_mod]
      _ = gfExp ((gfLog b % 255 + (gfLog a + 255 - gfLog b) % 255) % 255) := by rw [hlogc]
      _ = gfExp ((gfLog b + (gfLog a + 255 - gfLog b)) % 255) := by rw [← Nat.add_mod]
      _ = gfExp ((gfLog a + 255) % 255) := by
          congr 1
          omega
      _ = gfExp (gfLog a % 255) := by rw [Nat.add_mod_right]
      _ = a := gfExp_gfLog_fact ⟨a, ha⟩ ha0

/-! ## GF(256) polynomials (src/unnamed/part_001, gf_poly.go) -/

/-- `gfPoly`: coefficient vector, `term[0]` the constant coefficient. -/
structure gfPoly where
  term : List ℕ
deriving DecidableEq, Repr

/-- `gfPoly.numTerms`. -/
def gfPoly.numTerms (e : gfPoly) : ℕ := e.term.length

/-- The coefficient of `x^k`, with 0 beyond the stored terms. -/
def gfPoly.coeff (e : gfPoly) (k : ℕ) : ℕ := e.term.getD k 0

/-- Drop the trailing zero terms of a coefficient list.  This is what the
`normalised` method of gf_poly.go computes: it scans down from the top term
for the first nonzero coefficient and truncates just after it (returning the
zero polynomial when all terms are zero). -/
def dropTrailingZeros (l : List ℕ) : List ℕ :=
  (l.reverse.dropWhile (fun x => x == 0)).reverse

/-- `gfPoly.normalised` (gf_poly.go lines 134-153). -/
def gfPoly.normalised (e : gfPoly) : gfPoly := ⟨dropTrailingZeros e.term⟩

/-- A polynomial value is in normal form when it has no trailing zero term. -/
def gfPoly.IsNorm (e : gfPoly) : Prop := e.term.getLast? ≠ some 0

/-- All coefficients are byte values. -/
def gfPoly.AllLt256 (e : gfPoly) : Prop := ∀ k, e.coeff k < 256

/-- `newGFPolyMonomial` (gf_poly.go lines 37-46): `term·x^degree`, the zero
polynomial when `term` is zero. -/
def newGFPolyMonomial (term degree : ℕ) : gfPoly :=
  if term = 0 then ⟨[]⟩ else ⟨List.replicate degree 0 ++ [term]⟩

/-- `gfPolyAdd` (gf_poly.go lines 109-132): pointwise `gfAdd` up to the
longer length (three-way `switch` on which operand still has terms), then
normalise. -/
def gfPolyAdd (a b : gfPoly) : gfPoly :=
  gfPoly.normalised ⟨(List.range (max a.numTerms b.numTerms)).map (fun i =>
    if a.numTerms > i ∧ b.numTerms > i then gfAdd (a.term.getD i 0) (b.term.getD i 0)
    else if a.numTerms > i then a.term.getD i 0
    else b.term.getD i 0)⟩

/-- One inner step of `gfPolyMultiply` (gf_poly.go lines 71-79): when both
coefficients are nonzero, add the monomial `a[i]·b[j] · x^(i+j)` (built as a
zero vector of length `i+j+1` with top entry the product) to the accumulator. -/
def gfPolyMulStep (a b : gfPoly) (result : gfPoly) (i j : ℕ) : gfPoly :=
  if a.term.getD i 0 ≠ 0 ∧ b.term.getD j 0 ≠ 0 then
    gfPolyAdd result ⟨List.replicate (i + j) 0 ++ [gfMultiply (a.term.getD i 0) (b.term.getD j 0)]⟩
  else result

/-- `gfPolyMultiply` (gf_poly.go lines 65-83): schoolbook double loop over
the term indices, starting from a zero vector of length
`numATerms + numBTerms`, normalised at the end. -/
def gfPolyMultiply (a b : gfPoly) : gfPoly :=
  (((List.range a.numTerms).foldl (fun result i =>
      (List.range b.numTerms).foldl (fun result j => gfPolyMulStep a b result i j) result)
    ⟨List.replicate (a.numTerms + b.numTerms) 0⟩)).normalised

/-- `gfPoly.equals` (gf_poly.go lines 155-184): compare the shared prefix
directly, then require the longer polynomial's extra terms to be zero. -/
def gfPolyEquals (e other : gfPoly) : Bool :=
  let numMinTerms := min e.numTerms other.numTerms
  let maxP := if e.numTerms > other.numTerms then e else other
  ((List.range numMinTerms).all (fun i => e.term.getD i 0 == other.term.getD i 0)) &&
  ((List.range' numMinTerms (maxP.numTerms - numMinTerms)).all
    (fun i => maxP.term.getD i 0 == 0))

/-- The body of the `for remainder.numTerms() >= denominator.numTerms()` loop
of `gfPolyRemainder` (gf_poly.go lines 85-107), with explicit fuel standing
for the loop's (provably sufficient, see `gfPolyRemainderLoop_ok`) iteration
bound. -/
def gfPolyRemainderLoop (denominator : gfPoly) : ℕ → gfPoly → Except String gfPoly
  | 0, _ => Except.error "out of fuel"
  | fuel + 1, remainder =>
    if denominator.numTerms ≤ remainder.numTerms then
      match gfDivide (remainder.coeff (remainder.numTerms - 1))
          (denominator.coeff (denominator.numTerms - 1)) with
      | Except.error e => Except.error e
      | Except.ok coefficient =>
        gfPolyRemainderLoop denominator fuel
          (gfPolyAdd remainder (gfPolyMultiply denominator
            (newGFPolyMonomial coefficient (remainder.numTerms - denominator.numTerms))))
    else Except.ok remainder.normalised

/-- `gfPolyRemainder` (gf_poly.go lines 85-107): error on a zero denominator,
else iterative long division; the loop strictly decreases the remainder's
term count each iteration, so `numerator.numTerms + 1` rounds of fuel always
suffice. -/
def gfPolyRemainder (numerator denominator : gfPoly) : Except String gfPoly :=
  if gfPolyEquals denominator ⟨[]⟩ then Except.error "remainder by zero"
  else gfPolyRemainderLoop denominator (numerator.numTerms + 1) numerator

/-! ### Normal-form lemmas -/

lemma dropTrailingZeros_append_singleton (l : List ℕ) (a : ℕ) :
    dropTrailingZeros (l ++ [a]) = if a = 0 then dropTrailingZeros l else l ++ [a] := by
  unfold dropTrailingZeros
  rw [List.reverse_append]
  by_cases h : a = 0
  · subst h
    simp [List.dropWhile_cons]
  · simp [List.dropWhile_cons, h]

lemma getD_dropTrailingZeros (l : List ℕ) (k : ℕ) :
    (dropTrailingZeros l).getD k 0 = l.getD k 0 := by
  induction l using List.reverseRecOn with
  | nil => rfl
  | append_singleton xs a ih =>
      rw [dropTrailingZeros_append_singleton]
      by_cases h : a = 0
      · rw [if_pos h, ih]
        subst h
        rcases Nat.lt_trichotomy k xs.length with hk | hk | hk
        · rw [List.getD_append _ _ _ _ hk]
        · subst hk
          rw [List.getD_eq_default _ _ (le_refl _),
            List.getD_append_right _ _ _ _ (le_refl _)]
          simp
        · rw [List.getD_eq_default _ _ (by omega),
            List.getD_eq_default _ _ (by simp; omega)]
      · rw [if_neg h]

lemma head?_dropWhile_not_zero (r : List ℕ) :
    ∀ v, (r.dropWhile (fun x => x == 0)).head? = some v → v ≠ 0 := by
  induction r with
  | nil => intro v h; simp at h
  | cons a t ih =>
      intro v h
      rw [List.dropWhile_cons] at h
      by_cases ha : a = 0
      · exact ih v (by simpa [ha] using h)
      · simp [ha] at h
        omega

lemma isNorm_mk_dropTrailingZeros (l : List ℕ) :
    gfPoly.IsNorm ⟨dropTrailingZeros l⟩ := by
  unfold gfPoly.IsNorm dropTrailingZeros
  intro h
  rw [List.getLast?_reverse] at h
  exact head?_dropWhile_not_zero _ 0 h rfl

lemma isNorm_normalised (e : gfPoly) : e.normalised.IsNorm :=
  isNorm_mk_dropTrailingZeros e.term

lemma coeff_normalised (e : gfPoly) (k : ℕ) : e.normalised.coeff k = e.coeff k :=
  getD_dropTrailingZeros e.term k

lemma numTerms_normalised_le (e : gfPoly) : e.normalised.numTerms ≤ e.numTerms := by
  unfold gfPoly.normalised gfPoly.numTerms dropTrailingZeros
  simp only [List.length_reverse]
  have h1 : (List.dropWhile (fun x => x == 0) e.term.reverse) <:+ e.term.reverse :=
    List.dropWhile_suffix _
  have h2 := h1.length_le
  rw [List.length_reverse] at h2
  exact h2

lemma coeff_eq_zero_of_numTerms_le (e : gfPoly) (k : ℕ) (h : e.numTerms ≤ k) :
    e.coeff k = 0 :=
  List.getD_eq_default _ _ h

lemma getLast?_eq_coeff (e : gfPoly) (h : e.term ≠ []) :
    e.term.getLast? = some (e.coeff (e.numTerms - 1)) := by
  unfold gfPoly.coeff gfPoly.numTerms
  rw [List.getLast?_eq_getElem? , List.getD_eq_getElem?_getD]
  have : e.term.length - 1 < e.term.length := by
    have := List.length_pos.mpr h
    omega
  rw [List.getElem?_eq_getElem this]
  rfl

lemma numTerms_le_of_isNorm_of_vanish (e : gfPoly) (t : ℕ) (hn : e.IsNorm)
    (hv : ∀ k, t ≤ k → e.coeff k = 0) : e.numTerms ≤ t := by
  by_contra hlt
  have hne : e.term ≠ [] := by
    intro h
    unfold gfPoly.numTerms at hlt
    rw [h] at hlt
    simp at hlt
  have := getLast?_eq_coeff e hne
  rw [hv (e.numTerms - 1) (by omega)] at this
  exact hn this

lemma length_dropTrailingZeros_lt (l : List ℕ) (h0 : l ≠ [])
    (hlast : l.getLast? = some 0) : (dropTrailingZeros l).length < l.length := by
  unfold dropTrailingZeros
  rw [List.length_reverse]
  have hhead : l.reverse.head? = some 0 := by
    rw [List.head?_reverse]
    exact hlast
  obtain ⟨t, ht⟩ : ∃ t, l.reverse = 0 :: t := by
    cases hr : l.reverse with
    | nil => rw [hr] at hhead; simp at hhead
    | cons a t =>
        rw [hr] at hhead
        simp at hhead
        exact ⟨t, by rw [hhead]⟩
  rw [ht, List.dropWhile_cons]
  simp only [beq_self_eq_true, if_true]
  have h1 : (List.dropWhile (fun x => x == 0) t) <:+ t := List.dropWhile_suffix _
  have h2 := h1.length_le
  have h3 : l.reverse.length = l.length := List.length_reverse l
  rw [ht] at h3
  simp at h3
  omega

/-- The `numTerms - 1` coefficient of a nonempty polynomial determines its
last entry. -/
lemma isNorm_iff_of_ne_nil (e : gfPoly) (h : e.term ≠ []) :
    e.IsNorm ↔ e.coeff (e.numTerms - 1) ≠ 0 := by
  unfold gfPoly.IsNorm
  rw [getLast?_eq_coeff e h]
  simp

/-! ### Coefficient lemmas for `gfPolyAdd` and `gfPolyMultiply` -/

lemma coeff_mk_map_range (n : ℕ) (f : ℕ → ℕ) (k : ℕ) :
    (gfPoly.mk ((List.range n).map f)).coeff k = if k < n then f k else 0 := by
  unfold gfPoly.coeff
  by_cases h : k < n
  · rw [if_pos h, List.getD_eq_getElem?_getD, List.getElem?_eq_getElem (by simpa using h)]
    simp
  · rw [if_neg h, List.getD_eq_default _ _ (by simpa using Nat.le_of_not_lt h)]

lemma coeff_gfPolyAdd (a b : gfPoly) (k : ℕ) :
    (gfPolyAdd a b).coeff k = gfAdd (a.coeff k) (b.coeff k) := by
  have hdef : ∀ (e : gfPoly) (i : ℕ), e.term.getD i 0 = e.coeff i := fun _ _ => rfl
  unfold gfPolyAdd
  rw [coeff_normalised, coeff_mk_map_range]
  simp only [hdef]
  by_cases h : k < max a.numTerms b.numTerms
  · rw [if_pos h]
    by_cases ha : a.numTerms > k <;> by_cases hb : b.numTerms > k
    · rw [if_pos ⟨ha, hb⟩]
    · have hb0 : b.coeff k = 0 := coeff_eq_zero_of_numTerms_le b k (by omega)
      rw [if_neg (fun hc => hb hc.2), if_pos ha, hb0]
      simp [gfAdd]
    · have ha0 : a.coeff k = 0 := coeff_eq_zero_of_numTerms_le a k (by omega)
      rw [if_neg (fun hc => ha hc.1), if_neg ha, ha0]
      simp [gfAdd]
    · omega
  · have ha0 : a.coeff k = 0 := coeff_eq_zero_of_numTerms_le a k (by omega)
    have hb0 : b.coeff k = 0 := coeff_eq_zero_of_numTerms_le b k (by omega)
    rw [if_neg h, ha0, hb0]
    simp [gfAdd]

lemma isNorm_gfPolyAdd (a b : gfPoly) : (gfPolyAdd a b).IsNorm :=
  isNorm_mk_dropTrailingZeros _

lemma numTerms_gfPolyAdd_le (a b : gfPoly) :
    (gfPolyAdd a b).numTerms ≤ max a.numTerms b.numTerms := by
  unfold gfPolyAdd
  have h := numTerms_normalised_le ⟨(List.range (max a.numTerms b.numTerms)).map (fun i =>
    if a.numTerms > i ∧ b.numTerms > i then gfAdd (a.term.getD i 0) (b.term.getD i 0)
    else if a.numTerms > i then a.term.getD i 0
    else b.term.getD i 0)⟩
  unfold gfPoly.numTerms at h ⊢
  simpa using h

/-- Fold a list with XOR. -/
def xorFold (l : List ℕ) : ℕ := l.foldr (fun a r => a ^^^ r) 0

lemma xorFold_nil : xorFold [] = 0 := rfl

lemma xorFold_cons (a : ℕ) (l : List ℕ) : xorFold (a :: l) = a ^^^ xorFold l := rfl

lemma xorFold_append (l₁ l₂ : List ℕ) :
    xorFold (l₁ ++ l₂) = xorFold l₁ ^^^ xorFold l₂ := by
  induction l₁ with
  | nil => simp [xorFold_nil, xorFold]
  | cons a t ih =>
      rw [List.cons_append, xorFold_cons, xorFold_cons, ih, Nat.xor_assoc]

lemma xorFold_eq_zero (l : List ℕ) (h : ∀ x ∈ l, x = 0) : xorFold l = 0 := by
  induction l with
  | nil => rfl
  | cons a t ih =>
      rw [xorFold_cons, h a (by simp), ih (fun x hx => h x (by simp [hx]))]
      simp

lemma xorFold_lt_256 (l : List ℕ) (h : ∀ x ∈ l, x < 256) : xorFold l < 256 := by
  induction l with
  | nil => simp [xorFold_nil]
  | cons a t ih =>
      rw [xorFold_cons]
      have h1 : a < 2 ^ 8 := by simpa using h a (by simp)
      have h2 : xorFold t < 2 ^ 8 := by simpa using ih (fun x hx => h x (by simp [hx]))
      simpa using Nat.xor_lt_two_pow h1 h2

lemma xorFold_map_range_single (n t : ℕ) (f : ℕ → ℕ) (ht : t < n)
    (h : ∀ i, i < n → i ≠ t → f i = 0) : xorFold ((List.range n).map f) = f t := by
  induction n with
  | zero => omega
  | succ m ih =>
      rw [List.range_succ, List.map_append, xorFold_append]
      by_cases htm : t = m
      · subst htm
        rw [xorFold_eq_zero _ (by
          intro x hx
          simp only [List.mem_map, List.mem_range] at hx
          obtain ⟨i, hi, rfl⟩ := hx
          exact h i (by omega) (by omega))]
        simp [xorFold]
      · rw [ih (by omega) (fun i hi hit => h i (by omega) hit)]
        have : f m = 0 := h m (by omega) (by omega)
        simp [xorFold, this]

/-- Coefficients of the shifted monomial `v·x^d` written as a padded list. -/
lemma coeff_shiftMono (d v k : ℕ) :
    (gfPoly.mk (List.replicate d 0 ++ [v])).coeff k = if k = d then v else 0 := by
  unfold gfPoly.coeff
  rcases Nat.lt_trichotomy k d with hk | hk | hk
  · rw [if_neg (by omega), List.getD_append _ _ _ _ (by simpa using hk)]
    rw [List.getD_eq_getElem?_getD, List.getElem?_eq_getElem (by simpa using hk)]
    simp
  · subst hk
    rw [if_pos rfl, List.getD_append_right _ _ _ _ (by simp)]
    simp
  · rw [if_neg (by omega), List.getD_eq_default _ _ (by simp; omega)]

lemma coeff_gfPolyMulStep (a b : gfPoly) (R : gfPoly) (i j k : ℕ) :
    (gfPolyMulStep a b R i j).coeff k
      = gfAdd (R.coeff k)
          (if k = i + j then gfMultiply (a.term.getD i 0) (b.term.getD j 0) else 0) := by
  unfold gfPolyMulStep
  by_cases hc : a.term.getD i 0 ≠ 0 ∧ b.term.getD j 0 ≠ 0
  · rw [if_pos hc, coeff_gfPolyAdd, coeff_shiftMono]
  · rw [if_neg hc]
    have : (if k = i + j then gfMultiply (a.term.getD i 0) (b.term.getD j 0) else 0) = 0 := by
      split
      · rcases Decidable.not_and_iff_or_not.mp hc with h | h
        · rw [Decidable.not_not.mp h, gfMultiply_zero_left]
        · rw [Decidable.not_not.mp h, gfMultiply_zero_right]
      · rfl
    rw [this]
    simp [gfAdd]

lemma coeff_mul_inner (a b : gfPoly) (i : ℕ) : ∀ (nB : ℕ) (R : gfPoly) (k : ℕ),
    ((List.range nB).foldl (fun R j => gfPolyMulStep a b R i j) R).coeff k
      = gfAdd (R.coeff k)
          (if i ≤ k ∧ k - i < nB
            then gfMultiply (a.term.getD i 0) (b.term.getD (k - i) 0) else 0) := by
  intro nB
  induction nB with
  | zero =>
      intro R k
      simp [gfAdd]
  | succ m ih =>
      intro R k
      rw [List.range_succ, List.foldl_append, List.foldl_cons, List.foldl_nil,
        coeff_gfPolyMulStep, ih]
      have hconv : (if k = i + m then gfMultiply (a.term.getD i 0) (b.term.getD m 0) else 0)
          = (if k = i + m then gfMultiply (a.term.getD i 0) (b.term.getD (k - i) 0) else 0) := by
        by_cases h : k = i + m
        · rw [if_pos h, if_pos h, h, Nat.add_sub_cancel_left]
        · rw [if_neg h, if_neg h]
      rw [hconv]
      unfold gfAdd
      by_cases hA : i ≤ k ∧ k - i < m
      · have hB : ¬ k = i + m := by omega
        have hC : i ≤ k ∧ k - i < m + 1 := by omega
        rw [if_pos hA, if_neg hB, if_pos hC]
        simp
      · by_cases hB : k = i + m
        · have hC : i ≤ k ∧ k - i < m + 1 := by omega
          rw [if_neg hA, if_pos hB, if_pos hC]
          simp
        · have hC : ¬ (i ≤ k ∧ k - i < m + 1) := by omega
          rw [if_neg hA, if_neg hB, if_neg hC]
          simp

lemma coeff_mul_outer (a b : gfPoly) : ∀ (nA : ℕ) (R : gfPoly) (k : ℕ),
    ((List.range nA).foldl (fun R i =>
        (List.range b.numTerms).foldl (fun R j => gfPolyMulStep a b R i j) R) R).coeff k
      = gfAdd (R.coeff k)
          (xorFold ((List.range nA).map (fun i =>
            if i ≤ k ∧ k - i < b.numTerms
              then gfMultiply (a.term.getD i 0) (b.term.getD (k - i) 0) else 0))) := by
  intro nA
  induction nA with
  | zero =>
      intro R k
      simp [gfAdd, xorFold_nil]
  | succ m ih =>
      intro R k
      rw [List.range_succ, List.foldl_append, List.foldl_cons, List.foldl_nil,
        coeff_mul_inner, ih, List.map_append, xorFold_append]
      unfold gfAdd
      simp [xorFold, Nat.xor_assoc]

/-- The coefficient characterisation of `gfPolyMultiply`: coefficient `k` of
the product is the XOR over all index pairs `(i, k-i)` of the coefficient
products. -/
lemma coeff_gfPolyMultiply (a b : gfPoly) (k : ℕ) :
    (gfPolyMultiply a b).coeff k
      = xorFold ((List.range a.numTerms).map (fun i =>
          if i ≤ k ∧ k - i < b.numTerms
            then gfMultiply (a.coeff i) (b.coeff (k - i)) else 0)) := by
  unfold gfPolyMultiply
  rw [coeff_normalised, coeff_mul_outer]
  have hz : (gfPoly.mk (List.replicate (a.numTerms + b.numTerms) 0)).coeff k = 0 := by
    unfold gfPoly.coeff
    by_cases h : k < a.numTerms + b.numTerms
    · rw [List.getD_eq_getElem?_getD, List.getElem?_eq_getElem (by simpa using h)]
      simp
    · rw [List.getD_eq_default _ _ (by simp; omega)]
  rw [hz]
  simp [gfAdd, gfPoly.coeff]

lemma isNorm_gfPolyMultiply (a b : gfPoly) : (gfPolyMultiply a b).IsNorm :=
  isNorm_mk_dropTrailingZeros _

lemma coeff_gfPolyMultiply_vanish (a b : gfPoly) (k : ℕ)
    (h : a.numTerms + b.numTerms ≤ k + 1) : (gfPolyMultiply a b).coeff k = 0 := by
  rw [coeff_gfPolyMultiply]
  apply xorFold_eq_zero
  intro x hx
  simp only [List.mem_map, List.mem_range] at hx
  obtain ⟨i, hi, rfl⟩ := hx
  rw [if_neg (by omega)]

lemma numTerms_gfPolyMultiply_le (a b : gfPoly) (ha : 1 ≤ a.numTerms)
    (hb : 1 ≤ b.numTerms) :
    (gfPolyMultiply a b).numTerms ≤ a.numTerms + b.numTerms - 1 := by
  apply numTerms_le_of_isNorm_of_vanish _ _ (isNorm_gfPolyMultiply a b)
  intro k hk
  exact coeff_gfPolyMultiply_vanish a b k (by omega)

lemma numTerms_gfPolyMultiply_zero_right (a : gfPoly) (hb : gfPoly.numTerms ⟨[]⟩ = 0) :
    (gfPolyMultiply a ⟨[]⟩).numTerms = 0 := by
  apply Nat.le_zero.mp
  apply numTerms_le_of_isNorm_of_vanish _ _ (isNorm_gfPolyMultiply a ⟨[]⟩)
  intro k _
  rw [coeff_gfPolyMultiply]
  apply xorFold_eq_zero
  intro x hx
  simp only [List.mem_map, List.mem_range] at hx
  obtain ⟨i, hi, rfl⟩ := hx
  rw [if_neg (by simp [gfPoly.numTerms])]

lemma coeff_gfPolyMultiply_top (a b : gfPoly) (ha : 1 ≤ a.numTerms)
    (hb : 1 ≤ b.numTerms) :
    (gfPolyMultiply a b).coeff (a.numTerms - 1 + (b.numTerms - 1))
      = gfMultiply (a.coeff (a.numTerms - 1)) (b.coeff (b.numTerms - 1)) := by
  rw [coeff_gfPolyMultiply]
  rw [xorFold_map_range_single _ (a.numTerms - 1) _ (by omega)
    (fun i hi hit => if_neg (by omega))]
  rw [if_pos ⟨by omega, by omega⟩]
  have harg : a.numTerms - 1 + (b.numTerms - 1) - (a.numTerms - 1) = b.numTerms - 1 := by
    omega
  rw [harg]

lemma coeff_gfPolyMultiply_monomial (d : gfPoly) (c deg k : ℕ) :
    (gfPolyMultiply d (newGFPolyMonomial c deg)).coeff k
      = if deg ≤ k ∧ k - deg < d.numTerms then gfMultiply (d.coeff (k - deg)) c else 0 := by
  by_cases hc : c = 0
  · subst hc
    have h1 : (gfPolyMultiply d (newGFPolyMonomial 0 deg)).coeff k = 0 := by
      unfold newGFPolyMonomial
      rw [if_pos rfl, coeff_gfPolyMultiply]
      apply xorFold_eq_zero
      intro x hx
      simp only [List.mem_map, List.mem_range] at hx
      obtain ⟨i, hi, rfl⟩ := hx
      rw [if_neg (by simp [gfPoly.numTerms])]
    rw [h1, gfMultiply_zero_right]
    simp
  · have hmono : newGFPolyMonomial c deg = ⟨List.replicate deg 0 ++ [c]⟩ := by
      unfold newGFPolyMonomial
      rw [if_neg hc]
    have hn : (newGFPolyMonomial c deg).numTerms = deg + 1 := by
      rw [hmono]
      simp [gfPoly.numTerms]
    rw [coeff_gfPolyMultiply, hn]
    have hcm : ∀ j, (newGFPolyMonomial c deg).coeff j = if j = deg then c else 0 := by
      intro j
      rw [hmono]
      exact coeff_shiftMono deg c j
    by_cases hcond : deg ≤ k ∧ k - deg < d.numTerms
    · rw [if_pos hcond]
      rw [xorFold_map_range_single _ (k - deg) _ (by omega) (fun i hi hit => by
        by_cases hik : i ≤ k ∧ k - i < deg + 1
        · rw [if_pos hik, hcm, if_neg (by omega), gfMultiply_zero_right]
        · rw [if_neg hik])]
      rw [if_pos ⟨by omega, by omega⟩, hcm, if_pos (by omega)]
    · rw [if_neg hcond]
      apply xorFold_eq_zero
      intro x hx
      simp only [List.mem_map, List.mem_range] at hx
      obtain ⟨i, hi, rfl⟩ := hx
      by_cases hik : i ≤ k ∧ k - i < deg + 1
      · rw [if_pos hik, hcm]
        by_cases hieq : k - i = deg
        · rw [if_pos hieq]
          exact absurd ⟨by omega, by omega⟩ hcond
        · rw [if_neg hieq, gfMultiply_zero_right]
      · rw [if_neg hik]

lemma allLt_gfPolyAdd (a b : gfPoly) (ha : a.AllLt256) (hb : b.AllLt256) :
    (gfPolyAdd a b).AllLt256 := by
  intro k
  rw [coeff_gfPolyAdd]
  unfold gfAdd
  have h1 : a.coeff k < 2 ^ 8 := by simpa using ha k
  have h2 : b.coeff k < 2 ^ 8 := by simpa using hb k
  simpa using Nat.xor_lt_two_pow h1 h2

lemma allLt_gfPolyMultiply (a b : gfPoly) : (gfPolyMultiply a b).AllLt256 := by
  intro k
  rw [coeff_gfPolyMultiply]
  apply xorFold_lt_256
  intro x hx
  simp only [List.mem_map, List.mem_range] at hx
  obtain ⟨i, hi, rfl⟩ := hx
  split
  · exact gfMultiply_lt_256 _ _
  · norm_num

lemma allLt_normalised (e : gfPoly) (h : e.AllLt256) : e.normalised.AllLt256 := by
  intro k
  rw [coeff_normalised]
  exact h k

/-- A nonzero leading coefficient makes `equals(zeroPoly)` false. -/
lemma gfPolyEquals_empty_eq_false (d : gfPoly) (h1 : 1 ≤ d.numTerms)
    (h2 : d.coeff (d.numTerms - 1) ≠ 0) : gfPolyEquals d ⟨[]⟩ = false := by
  unfold gfPolyEquals
  have hzero : gfPoly.numTerms ⟨[]⟩ = 0 := rfl
  simp only [hzero]
  have hmax : (if d.numTerms > 0 then d else (⟨[]⟩ : gfPoly)) = d := if_pos (by omega)
  simp only [hmax, Nat.min_zero, Nat.sub_zero, List.range_zero, List.all_nil, Bool.true_and]
  rw [List.all_eq_false]
  refine ⟨d.numTerms - 1, ?_, ?_⟩
  · have : d.numTerms - 1 ∈ List.range' 0 d.numTerms := by
      simp [List.mem_range']
      omega
    simpa using this
  · simp only [beq_iff_eq]
    exact h2

/-! ### Termination and success of the long-division loop -/

lemma remainder_step_shrinks (d rem : gfPoly) (c : ℕ)
    (hd1 : 1 ≤ d.numTerms) (hrd : d.numTerms ≤ rem.numTerms)
    (hld : d.coeff (d.numTerms - 1) ≠ 0)
    (hdc : gfDivide (rem.coeff (rem.numTerms - 1)) (d.coeff (d.numTerms - 1)) = Except.ok c)
    (hrem : rem.AllLt256) (hdlt : d.AllLt256) :
    (gfPolyAdd rem (gfPolyMultiply d
      (newGFPolyMonomial c (rem.numTerms - d.numTerms)))).numTerms + 1 ≤ rem.numTerms := by
  set deg := rem.numTerms - d.numTerms with hdeg
  have hcancel : gfMultiply (d.coeff (d.numTerms - 1)) c = rem.coeff (rem.numTerms - 1) :=
    gfMultiply_gfDivide_cancel _ _ _ (hrem _) (hdlt _) hld hdc
  have hvanish : ∀ k, rem.numTerms - 1 ≤ k →
      (gfPolyAdd rem (gfPolyMultiply d (newGFPolyMonomial c deg))).coeff k = 0 := by
    intro k hk
    rw [coeff_gfPolyAdd, coeff_gfPolyMultiply_monomial]
    rcases Nat.lt_or_ge k rem.numTerms with hk2 | hk2
    · have hkeq : k = rem.numTerms - 1 := by omega
      subst hkeq
      rw [if_pos ⟨by omega, by omega⟩]
      have : rem.numTerms - 1 - deg = d.numTerms - 1 := by omega
      rw [this]
      unfold gfAdd
      rw [hcancel]
      simp
    · rw [coeff_eq_zero_of_numTerms_le rem k hk2]
      rw [if_neg (by omega)]
      simp [gfAdd]
  have := numTerms_le_of_isNorm_of_vanish _ (rem.numTerms - 1)
    (isNorm_gfPolyAdd _ _) hvanish
  omega

/-- Success of the division loop: with a normal-form denominator with nonzero
leading coefficient and enough fuel, the loop yields a remainder of smaller
degree than the denominator, in normal form, with byte coefficients. -/
lemma gfPolyRemainderLoop_ok (d : gfPoly) (hd1 : 1 ≤ d.numTerms)
    (hld : d.coeff (d.numTerms - 1) ≠ 0) (hdlt : d.AllLt256) :
    ∀ (fuel : ℕ) (rem : gfPoly), rem.AllLt256 → rem.numTerms < fuel →
    ∃ r, gfPolyRemainderLoop d fuel rem = Except.ok r ∧
      r.numTerms < d.numTerms ∧ r.IsNorm ∧ r.AllLt256 := by
  intro fuel
  induction fuel with
  | zero =>
      intro rem _ h
      omega
  | succ f ih =>
      intro rem hrem hfuel
      simp only [gfPolyRemainderLoop]
      by_cases hge : d.numTerms ≤ rem.numTerms
      · rw [if_pos hge]
        obtain ⟨c, hc, _⟩ := gfDivide_ok_of_ne_zero
          (rem.coeff (rem.numTerms - 1)) (d.coeff (d.numTerms - 1)) hld
        rw [hc]
        have hshrink := remainder_step_shrinks d rem c hd1 hge hld hc hrem hdlt
        have hnew : (gfPolyAdd rem (gfPolyMultiply d
            (newGFPolyMonomial c (rem.numTerms - d.numTerms)))).AllLt256 :=
          allLt_gfPolyAdd _ _ hrem (allLt_gfPolyMultiply _ _)
        exact ih _ hnew (by omega)
      · rw [if_neg hge]
        refine ⟨rem.normalised, rfl, ?_, isNorm_normalised rem, allLt_normalised rem hrem⟩
        have := numTerms_normalised_le rem
        omega

/-- Whatever fuel is given, an `ok` result of the division loop is in normal
form (the loop only returns through `remainder.normalised()`). -/
lemma gfPolyRemainderLoop_isNorm :
    ∀ (fuel : ℕ) (d rem r : gfPoly),
      gfPolyRemainderLoop d fuel rem = Except.ok r → r.IsNorm := by
  intro fuel
  induction fuel with
  | zero =>
      intro d rem r h
      simp [gfPolyRemainderLoop] at h
  | succ f ih =>
      intro d rem r h
      simp only [gfPolyRemainderLoop] at h
      split at h
      · split at h
        · simp at h
        · exact ih d _ r h
      · obtain rfl : rem.normalised = r := by simpa using h
        exact isNorm_normalised rem

lemma gfPolyRemainder_isNorm (n d r : gfPoly)
    (h : gfPolyRemainder n d = Except.ok r) : r.IsNorm := by
  unfold gfPolyRemainder at h
  split at h
  · simp at h
  · exact gfPolyRemainderLoop_isNorm _ d n r h

/-- Success of `gfPolyRemainder` for a denominator in normal form with a
nonzero leading coefficient. -/
lemma gfPolyRemainder_ok (n d : gfPoly) (hd1 : 1 ≤ d.numTerms)
    (hld : d.coeff (d.numTerms - 1) ≠ 0) (hdlt : d.AllLt256) (hn : n.AllLt256) :
    ∃ r, gfPolyRemainder n d = Except.ok r ∧
      r.numTerms < d.numTerms ∧ r.IsNorm ∧ r.AllLt256 := by
  unfold gfPolyRemainder
  rw [gfPolyEquals_empty_eq_false d hd1 hld]
  simp only [Bool.false_eq_true, if_false]
  exact gfPolyRemainderLoop_ok d hd1 hld hdlt (n.numTerms + 1) n hn (by omega)

/-! ## Reed-Solomon encoder (src/internal/reedsolomon) -/

lemma getD_set (l : List ℕ) (i j a : ℕ) :
    (l.set i a).getD j 0 = if i = j ∧ i < l.length then a else l.getD j 0 := by
  by_cases hij : i = j
  · subst hij
    by_cases hi : i < l.length
    · rw [if_pos ⟨rfl, hi⟩, List.getD_eq_getElem?_getD, List.getElem?_set_self hi]
      rfl
    · rw [if_neg (fun hc => hi hc.2), List.set_eq_of_length_le (by omega)]
  · rw [if_neg (fun hc => hij hc.1), List.getD_eq_getElem?_getD,
      List.getElem?_set_ne hij, ← List.getD_eq_getElem?_getD]

/-- `newGFPolyFromData` (gf_poly.go lines 13-35): interpret the bit buffer as
big-endian codewords.  The loop walks bit positions `j = 0, 8, 16, …` below
`data.Len()` (that is `numTotalBytes` iterations) and stores `ByteAt(j)` at
descending term indices, so the last byte group becomes `term[0]`. -/
def fromDataStep (data : Bitset) (numTotalBytes : ℕ) (term : List ℕ) (t : ℕ) :
    Except String (List ℕ) := do
  let byv ← byteAt data (8 * t)
  Except.ok (term.set (numTotalBytes - 1 - t) byv)

def numTotalBytesOf (data : Bitset) : ℕ :=
  bsLen data / 8 + (if bsLen data % 8 ≠ 0 then 1 else 0)

def newGFPolyFromData (data : Bitset) : Except String gfPoly := do
  let term ← (List.range (numTotalBytesOf data)).foldlM
    (fromDataStep data (numTotalBytesOf data)) (List.replicate (numTotalBytesOf data) 0)
  Except.ok ⟨term⟩

/-- `gfPoly.data` (gf_poly.go lines 48-59): emit `numTerms` bytes, most
significant term first (the write index starts at `numTerms - len(term)` and
walks up while the term index walks down), so the output is left-padded with
zero bytes; the Go `byte(…)` cast is `% 256`. -/
def gfPolyData (e : gfPoly) (numTerms : ℕ) : List ℕ :=
  (e.term.reverse.foldl (fun (st : List ℕ × ℕ) v => (st.1.set st.2 (v % 256), st.2 + 1))
    (List.replicate numTerms 0, numTerms - e.numTerms)).1

/-- `rsGeneratorPoly` (reed_solomon.go lines 52-65): error for `degree < 2`,
else the product of the factors `(x + αⁱ)` for `i < degree`, each stored as
the term vector `[gfExpTable[i], 1]`, accumulated from the polynomial `1`. -/
def rsGeneratorPoly (degree : ℕ) : Except String gfPoly :=
  if degree < 2 then Except.error "degree < 2"
  else Except.ok ((List.range degree).foldl
    (fun generator i => gfPolyMultiply generator ⟨[gfExpTable.getD i 0, 1]⟩) ⟨[1]⟩)

/-- `Bitset.AppendByte` (bitset.go lines 60-76): append the low `numBits`
bits of `value`, most significant first; error when `numBits > 8`. -/
def appendByte (b : Bitset) (value numBits : ℕ) : Except String Bitset :=
  if numBits > 8 then Except.error "numBits out of range 0-8"
  else Except.ok (b ++ ((List.range numBits).reverse.map (fun i => value.testBit i)))

/-- `Bitset.AppendBytes` (bitset.go lines 50-58): append 8 bits per byte. -/
def appendBytes (b : Bitset) (data : List ℕ) : Except String Bitset :=
  data.foldlM (fun b v => appendByte b v 8) b

/-- The 8 bits of a byte value, most significant first. -/
def byteBits (v : ℕ) : List Bool := (List.range 8).reverse.map (fun i => v.testBit i)

/-- `reedsolomon.Encode` (reed_solomon.go lines 9-50): build the data
polynomial, multiply by `x^numECBytes`, reduce modulo the generator, and
return `Clone(data)` (the same logical bit sequence) with the remainder's
`data(numECBytes)` bytes appended. -/
def rsEncode (data : Bitset) (numECBytes : ℕ) : Except String Bitset := do
  let ecpoly ← newGFPolyFromData data
  let ecpoly := gfPolyMultiply ecpoly (newGFPolyMonomial gfOne numECBytes)
  let generator ← rsGeneratorPoly numECBytes
  let remainder ← gfPolyRemainder ecpoly generator
  appendBytes data (gfPolyData remainder numECBytes)

/-! ### Success and shape lemmas for the Reed-Solomon pipeline -/

lemma appendBytes_ok (data : List ℕ) : ∀ (b : Bitset),
    appendBytes b data = Except.ok (b ++ (data.map byteBits).flatten) := by
  unfold appendBytes
  induction data with
  | nil =>
      intro b
      simp
      rfl
  | cons v t ih =>
      intro b
      have hstep : appendByte b v 8
          = Except.ok (b ++ ((List.range 8).reverse.map (fun i => v.testBit i))) := by
        unfold appendByte
        rw [if_neg (by omega)]
      rw [List.foldlM_cons, hstep]
      show t.foldlM (fun b v => appendByte b v 8) _ = _
      rw [ih]
      simp [byteBits]

lemma newGFPolyFromData_fold_ok (data : Bitset) (N : ℕ) :
    ∀ (l : List ℕ) (acc : List ℕ), (∀ t ∈ l, 8 * t < bsLen data) →
      (∀ k, acc.getD k 0 < 256) →
      ∃ r, l.foldlM (fromDataStep data N) acc = Except.ok r ∧
        (∀ k, r.getD k 0 < 256) := by
  intro l
  induction l with
  | nil =>
      intro acc _ hacc
      exact ⟨acc, rfl, hacc⟩
  | cons t ts ih =>
      intro acc hl hacc
      have hb : 8 * t < bsLen data := hl t (by simp)
      obtain ⟨val, hval, hvlt⟩ : ∃ v, byteAt data (8 * t) = Except.ok v ∧ v < 256 :=
        ⟨_, byteAt_eq data (8 * t) hb, byteAt_lt_256 data (8 * t) _ (byteAt_eq data (8 * t) hb)⟩
      have hstep : fromDataStep data N acc t = Except.ok (acc.set (N - 1 - t) val) := by
        unfold fromDataStep
        rw [hval]
        rfl
      rw [List.foldlM_cons, hstep]
      have haccset : ∀ k, (acc.set (N - 1 - t) val).getD k 0 < 256 := by
        intro k
        rw [getD_set]
        split
        · exact hvlt
        · exact hacc k
      exact ih (acc.set (N - 1 - t) val) (fun x hx => hl x (by simp [hx])) haccset

/-- `newGFPolyFromData` always succeeds, and all produced coefficients are
byte values. -/
lemma newGFPolyFromData_ok (data : Bitset) :
    ∃ p, newGFPolyFromData data = Except.ok p ∧ p.AllLt256 := by
  unfold newGFPolyFromData
  have hN : ∀ t ∈ List.range (numTotalBytesOf data), 8 * t < bsLen data := by
    intro t ht
    rw [List.mem_range] at ht
    unfold numTotalBytesOf at ht
    by_cases h : bsLen data % 8 = 0
    · rw [if_neg (by omega)] at ht
      omega
    · rw [if_pos h] at ht
      omega
  have hacc : ∀ k, (List.replicate (numTotalBytesOf data) 0).getD k 0 < 256 := by
    intro k
    rcases Nat.lt_or_ge k (numTotalBytesOf data) with h | h
    · rw [List.getD_eq_getElem?_getD, List.getElem?_eq_getElem (by simpa using h)]
      simp
    · rw [List.getD_eq_default _ _ (by simpa using h)]
      norm_num
  obtain ⟨r, hr, hrlt⟩ := newGFPolyFromData_fold_ok data _ _ _ hN hacc
  refine ⟨⟨r⟩, ?_, hrlt⟩
  rw [hr]
  rfl

/-- Invariant for `rsGeneratorPoly`'s accumulation: after multiplying the
first `n` factors `(x + αⁱ)` into the constant polynomial `1`, the product
has `n + 1` terms, a nonzero leading coefficient, is in normal form, and has
byte coefficients. -/
lemma rsGenerator_core (n : ℕ) :
    ((List.range n).foldl (fun generator i =>
        gfPolyMultiply generator ⟨[gfExpTable.getD i 0, 1]⟩) ⟨[1]⟩).numTerms = n + 1 ∧
    ((List.range n).foldl (fun generator i =>
        gfPolyMultiply generator ⟨[gfExpTable.getD i 0, 1]⟩) ⟨[1]⟩).coeff n ≠ 0 ∧
    ((List.range n).foldl (fun generator i =>
        gfPolyMultiply generator ⟨[gfExpTable.getD i 0, 1]⟩) ⟨[1]⟩).IsNorm ∧
    ((List.range n).foldl (fun generator i =>
        gfPolyMultiply generator ⟨[gfExpTable.getD i 0, 1]⟩) ⟨[1]⟩).AllLt256 := by
  induction n with
  | zero =>
      refine ⟨rfl, by decide, by unfold gfPoly.IsNorm; decide, ?_⟩
      intro k
      rcases k with _ | k
      · decide
      · rw [coeff_eq_zero_of_numTerms_le _ _ (by simp [gfPoly.numTerms])]
        norm_num
  | succ m ih =>
      obtain ⟨hlen, hlead, _, _⟩ := ih
      rw [List.range_succ, List.foldl_append, List.foldl_cons, List.foldl_nil]
      set G := (List.range m).foldl (fun generator i =>
        gfPolyMultiply generator ⟨[gfExpTable.getD i 0, 1]⟩) ⟨[1]⟩ with hGdef
      have hG1 : 1 ≤ G.numTerms := by omega
      have hb1 : 1 ≤ (gfPoly.mk [gfExpTable.getD m 0, 1]).numTerms := by
        simp [gfPoly.numTerms]
      have hbn : (gfPoly.mk [gfExpTable.getD m 0, 1]).numTerms = 2 := by
        simp [gfPoly.numTerms]
      have htop := coeff_gfPolyMultiply_top G ⟨[gfExpTable.getD m 0, 1]⟩ hG1 hb1
      rw [hlen, hbn] at htop
      have hb2 : (gfPoly.mk [gfExpTable.getD m 0, 1]).coeff (2 - 1) = 1 := rfl
      rw [hb2] at htop
      have hidx : m + 1 - 1 + (2 - 1) = m + 1 := by omega
      rw [hidx] at htop
      have hlead1 : G.coeff (m + 1 - 1) = G.coeff m := by
        have : m + 1 - 1 = m := by omega
        rw [this]
      rw [hlead1] at htop
      have hleadnew : (gfPolyMultiply G ⟨[gfExpTable.getD m 0, 1]⟩).coeff (m + 1) ≠ 0 := by
        rw [htop]
        exact gfMultiply_ne_zero _ _ hlead one_ne_zero
      have hlenle := numTerms_gfPolyMultiply_le G ⟨[gfExpTable.getD m 0, 1]⟩ hG1 hb1
      rw [hlen, hbn] at hlenle
      have hlenge : ¬ (gfPolyMultiply G ⟨[gfExpTable.getD m 0, 1]⟩).numTerms ≤ m + 1 := by
        intro hc
        exact hleadnew (coeff_eq_zero_of_numTerms_le _ _ hc)
      exact ⟨by omega, hleadnew, isNorm_gfPolyMultiply _ _, allLt_gfPolyMultiply _ _⟩

lemma rsGeneratorPoly_ok (k : ℕ) (hk : 2 ≤ k) :
    ∃ G, rsGeneratorPoly k = Except.ok G ∧ G.numTerms = k + 1 ∧
      G.coeff k ≠ 0 ∧ G.IsNorm ∧ G.AllLt256 := by
  unfold rsGeneratorPoly
  rw [if_neg (by omega)]
  obtain ⟨h1, h2, h3, h4⟩ := rsGenerator_core k
  exact ⟨_, rfl, h1, h2, h3, h4⟩

/-- The write loop of `gfPoly.data` in closed form: starting at write
position `pos` with `pos + (number of values) = length`, it overwrites the
suffix with the (casts of the) values. -/
lemma gfPolyData_fold (l : List ℕ) : ∀ (res : List ℕ) (pos : ℕ),
    pos + l.length = res.length →
    (l.foldl (fun (st : List ℕ × ℕ) v => (st.1.set st.2 (v % 256), st.2 + 1)) (res, pos)).1
      = res.take pos ++ l.map (fun v => v % 256) := by
  induction l with
  | nil =>
      intro res pos h
      simp only [List.length_nil, Nat.add_zero] at h
      show res = res.take pos ++ ([] : List ℕ).map (fun v => v % 256)
      simp only [List.map_nil, List.append_nil]
      rw [List.take_all_of_le (by omega)]
  | cons v t ih =>
      intro res pos h
      simp only [List.length_cons] at h
      rw [List.foldl_cons]
      rw [ih (res.set pos (v % 256)) (pos + 1) (by rw [List.length_set]; omega)]
      rw [List.set_eq_take_cons_drop _ (show pos < res.length by omega)]
      have hlenA : (res.take pos).length = pos := by
        rw [List.length_take]
        omega
      have htake : (res.take pos ++ (v % 256) :: res.drop (pos + 1)).take (pos + 1)
          = res.take pos ++ [v % 256] := by
        rw [show pos + 1 = (res.take pos).length + 1 by omega, List.take_append]
        rfl
      rw [htake, List.map_cons, List.append_assoc]
      rfl

/-- `gfPoly.data numTerms` for a polynomial with at most `numTerms` terms:
`numTerms - len` zero bytes followed by the terms most significant first. -/
lemma gfPolyData_eq (e : gfPoly) (n : ℕ) (h : e.numTerms ≤ n) :
    gfPolyData e n
      = List.replicate (n - e.numTerms) 0 ++ e.term.reverse.map (fun v => v % 256) := by
  unfold gfPolyData
  rw [gfPolyData_fold _ _ _ (by
    rw [List.length_reverse, List.length_replicate]
    unfold gfPoly.numTerms at h ⊢
    omega)]
  congr 1
  rw [List.take_replicate]
  congr 1
  omega

lemma exceptBind_ok {α β : Type} (a : α) (f : α → Except String β) :
    (Except.ok a >>= f) = f a := rfl

/-- C1: for every bit buffer `b` and every `numEC = k ≥ 2`, Reed-Solomon
`Encode(b, k)` succeeds; its output is exactly the bits of `b` (so the first
`b.Len()` bits, leading zero bits included, are untouched) followed by `k`
bytes: `remainder.data(k)` for the remainder of
`(polynomial of b) · x^k` modulo the generator `∏ (x + αⁱ)`, which is
emitted most-significant term first and left-padded with zero bytes when the
remainder has fewer than `k` terms. -/
theorem c1_reed_solomon_encode (b : Bitset) (k : ℕ) (hk : 2 ≤ k) :
    ∃ p G rem,
      newGFPolyFromData b = Except.ok p ∧
      rsGeneratorPoly k = Except.ok G ∧
      gfPolyRemainder (gfPolyMultiply p (newGFPolyMonomial gfOne k)) G = Except.ok rem ∧
      rem.numTerms ≤ k ∧
      gfPolyData rem k
        = List.replicate (k - rem.numTerms) 0 ++ rem.term.reverse.map (fun v => v % 256) ∧
      rsEncode b k = Except.ok (b ++ ((gfPolyData rem k).map byteBits).flatten) := by
  obtain ⟨p, hp, hplt⟩ := newGFPolyFromData_ok b
  obtain ⟨G, hG, hGlen, hGlead, hGnorm, hGlt⟩ := rsGeneratorPoly_ok k hk
  have hGlead' : G.coeff (G.numTerms - 1) ≠ 0 := by
    rw [hGlen]
    simpa using hGlead
  obtain ⟨rem, hrem, hremlt, hremnorm, hremall⟩ :=
    gfPolyRemainder_ok (gfPolyMultiply p (newGFPolyMonomial gfOne k)) G
      (by omega) hGlead' hGlt (allLt_gfPolyMultiply _ _)
  refine ⟨p, G, rem, hp, hG, hrem, by omega, gfPolyData_eq rem k (by omega), ?_⟩
  unfold rsEncode
  rw [hp]
  simp only [exceptBind_ok]
  rw [hG]
  simp only [exceptBind_ok]
  rw [hrem]
  simp only [exceptBind_ok]
  exact appendBytes_ok _ b

/-- C1 witness: the theorem applied to the 8-bit buffer `0xC8` with two
error-correction bytes. -/
theorem c1_reed_solomon_encode_witness :
    ∃ p G rem,
      newGFPolyFromData [true, true, false, false, true, false, false, false]
        = Except.ok p ∧
      rsGeneratorPoly 2 = Except.ok G ∧
      gfPolyRemainder (gfPolyMultiply p (newGFPolyMonomial gfOne 2)) G = Except.ok rem ∧
      rem.numTerms ≤ 2 ∧
      gfPolyData rem 2
        = List.replicate (2 - rem.numTerms) 0 ++ rem.term.reverse.map (fun v => v % 256) ∧
      rsEncode [true, true, false, false, true, false, false, false] 2
        = Except.ok ([true, true, false, false, true, false, false, false]
            ++ ((gfPolyData rem 2).map byteBits).flatten) :=
  c1_reed_solomon_encode [true, true, false, false, true, false, false, false] 2 (by omega)

/-- C8 counterexample input: the bit buffer of one zero byte. -/
def zeroByteBuffer : Bitset := List.replicate 8 false

/-- C8: the claim says every polynomial produced by the operations, including
construction from data, is normalised (no trailing zero terms, `numTerms` 0
for the zero polynomial).  But `newGFPolyFromData` performs no trimming: on
the one-byte buffer `0x00` it yields the term vector `[0]` — the zero
polynomial with a trailing zero term and `numTerms = 1 ≠ 0`. -/
theorem c8_normalised_counterexample :
    newGFPolyFromData zeroByteBuffer = Except.ok ⟨[0]⟩ ∧
    ¬ (gfPoly.mk [0]).IsNorm ∧ (gfPoly.mk [0]).numTerms ≠ 0 := by
  refine ⟨rfl, ?_, by decide⟩
  unfold gfPoly.IsNorm
  decide

/-- C8 (amended): the polynomial values produced by monomial construction,
addition, multiplication and remainder are always normalised (no trailing
zero terms); construction from data (`newGFPolyFromData`) is the exception —
it keeps leading zero data bytes as trailing zero terms (see
`c8_normalised_counterexample`). -/
theorem c8_normalised_amended :
    (∀ c d, (newGFPolyMonomial c d).IsNorm) ∧
    (∀ a b, (gfPolyAdd a b).IsNorm) ∧
    (∀ a b, (gfPolyMultiply a b).IsNorm) ∧
    (∀ n d r, gfPolyRemainder n d = Except.ok r → r.IsNorm) := by
  refine ⟨?_, isNorm_gfPolyAdd, isNorm_gfPolyMultiply, gfPolyRemainder_isNorm⟩
  intro c d
  unfold newGFPolyMonomial gfPoly.IsNorm
  by_cases hc : c = 0
  · rw [if_pos hc]
    simp
  · rw [if_neg hc]
    simp only [List.getLast?_concat]
    simp [hc]

/-- C8 witness: the amended theorem applied at concrete polynomials,
including a run of the remainder (zero polynomial modulo the constant 1). -/
theorem c8_normalised_witness :
    (newGFPolyMonomial 1 0).IsNorm ∧ (gfPolyAdd ⟨[1]⟩ ⟨[1]⟩).IsNorm ∧
    (gfPolyMultiply ⟨[1]⟩ ⟨[2]⟩).IsNorm ∧ (gfPoly.mk []).IsNorm := by
  have h := c8_normalised_amended
  exact ⟨h.1 1 0, h.2.1 ⟨[1]⟩ ⟨[1]⟩, h.2.2.1 ⟨[1]⟩ ⟨[2]⟩,
    h.2.2.2 ⟨[]⟩ ⟨[1]⟩ ⟨[]⟩ rfl⟩

/-! ## Symbol grid and penalty rules (src/unnamed/part_000, symbol.go) -/

/-- The `symbol` struct of symbol.go: module and used planes (indexed
`[y][x]` in absolute coordinates), total `size`, the symbol-only
`symbolSize`, and the quiet zone width. -/
structure symbolT where
  module : List (List Bool)
  isUsed : List (List Bool)
  size : ℕ
  symbolSize : ℕ
  quietZoneSize : ℕ
deriving DecidableEq, Repr

/-- `symbol.get` (symbol.go lines 39-42): read a module in symbol-relative
coordinates; the quiet-zone offset is applied internally. -/
def symbolT.get (m : symbolT) (x y : ℕ) : Bool :=
  (m.module.getD (y + m.quietZoneSize) []).getD (x + m.quietZoneSize) false

/-- `symbol.numEmptyModules` (symbol.go lines 48-60). -/
def symbolT.numEmptyModules (m : symbolT) : ℕ :=
  ((List.range m.symbolSize).map (fun y =>
    ((List.range m.symbolSize).map (fun x =>
      if (m.isUsed.getD (y + m.quietZoneSize) []).getD (x + m.quietZoneSize) false
      then 0 else 1)).sum)).sum

def penaltyWeight1 : ℕ := 3

def penaltyWeight2 : ℕ := 3

def penaltyWeight3 : ℕ := 40

def penaltyWeight4 : ℕ := 10

/-- The inner loop of `penalty1` (symbol.go lines 96-142) along one line of
modules: track the previous value and the current run length; on the 6th
equal module add `penaltyWeight1 + 1`, and 1 for each further equal module. -/
def p1Scan (lastValue : Bool) (count acc : ℕ) : List Bool → ℕ
  | [] => acc
  | v :: rest =>
    if v ≠ lastValue then p1Scan v 1 acc rest
    else if count + 1 = 6 then p1Scan lastValue (count + 1) (acc + (penaltyWeight1 + 1)) rest
    else if count + 1 > 6 then p1Scan lastValue (count + 1) (acc + 1) rest
    else p1Scan lastValue (count + 1) acc rest

/-- `penalty1`'s per-line scan, seeded with the first module and count 1. -/
def penalty1Line : List Bool → ℕ
  | [] => 0
  | h :: t => p1Scan h 1 0 t

/-- Column `x` of the symbol area, top to bottom. -/
def symbolT.colList (m : symbolT) (x : ℕ) : List Bool :=
  (List.range m.symbolSize).map (fun y => m.get x y)

/-- Row `y` of the symbol area, left to right. -/
def symbolT.rowList (m : symbolT) (y : ℕ) : List Bool :=
  (List.range m.symbolSize).map (fun x => m.get x y)

/-- `symbol.penalty1` (symbol.go lines 96-142): the run-length scan over
every column and then every row, accumulated into one total. -/
def symbolT.penalty1 (m : symbolT) : ℕ :=
  ((List.range m.symbolSize).map (fun x => penalty1Line (m.colList x))).sum +
  ((List.range m.symbolSize).map (fun y => penalty1Line (m.rowList y))).sum

/-- `symbol.penalty2` (symbol.go lines 144-161): count positions
`(x, y), 1 ≤ x, y < symbolSize` whose 2×2 block up-left of them is a single
colour; weight the count at the end. -/
def symbolT.penalty2 (m : symbolT) : ℕ :=
  (((List.range' 1 (m.symbolSize - 1)).map (fun y =>
    ((List.range' 1 (m.symbolSize - 1)).map (fun x =>
      if m.get x y = m.get (x - 1) y ∧ m.get x y = m.get x (y - 1) ∧
         m.get x y = m.get (x - 1) (y - 1) then 1 else 0)).sum)).sum) * penaltyWeight2

/-- The inner loop of `penalty3` (symbol.go lines 163-211) along one line:
an 11-bit sliding window (`int16` buffer; only the low 11 bits are ever
inspected, so a `Nat` buffer is faithful); on `0x05d`/`0x5d0` add
`penaltyWeight3` and poison the buffer with `0xFF`; at the end of the line
also match the 7-bit suffix `0x5d`. -/
def p3Scan (bitBuffer acc : ℕ) : List Bool → ℕ
  | [] => acc
  | v :: rest =>
    let b := 2 * bitBuffer + (if v then 1 else 0)
    if b &&& 2047 = 93 ∨ b &&& 2047 = 1488 then p3Scan 255 (acc + penaltyWeight3) rest
    else if rest = [] ∧ b &&& 127 = 93 then p3Scan 255 (acc + penaltyWeight3) rest
    else p3Scan b acc rest

/-- `symbol.penalty3` (symbol.go lines 163-211): the sliding-window scan over
every row and then every column. -/
def symbolT.penalty3 (m : symbolT) : ℕ :=
  ((List.range m.symbolSize).map (fun y => p3Scan 0 0 (m.rowList y))).sum +
  ((List.range m.symbolSize).map (fun x => p3Scan 0 0 (m.colList x))).sum

/-- `symbol.penalty4` (symbol.go lines 213-231): count the dark modules,
take the absolute deviation from `numModules/2`, and divide by
`numModules/20` (all Go integer divisions; for `numModules < 20` the Go code
divides by zero and panics — every caller passes a real symbol, where
`numModules ≥ 441`). -/
def symbolT.penalty4 (m : symbolT) : ℕ :=
  penaltyWeight4 *
    ((((m.symbolSize * m.symbolSize / 2 : ℕ) : ℤ) -
      (((((List.range m.symbolSize).map (fun x =>
        ((List.range m.symbolSize).map (fun y => if m.get x y then 1 else 0)).sum)).sum : ℕ)
        : ℤ))).natAbs
      / (m.symbolSize * m.symbolSize / 20))

/-- `symbol.penaltyScore` (symbol.go lines 92-94). -/
def symbolT.penaltyScore (m : symbolT) : ℕ :=
  m.penalty1 + m.penalty2 + m.penalty3 + m.penalty4

/-! ### C3: penalty rule P1 versus maximal same-colour runs -/

/-- Lengths of the maximal same-value runs of a line, in order. -/
def runsAux (v : Bool) (n : ℕ) : List Bool → List ℕ
  | [] => [n]
  | h :: t => if h = v then runsAux v (n + 1) t else n :: runsAux h 1 t

/-- Run-length encoding of a line of modules. -/
def runLengths : List Bool → List ℕ
  | [] => []
  | h :: t => runsAux h 1 t

/-- The contribution the claim asserts for a maximal run of length `L`:
`w1 + (L - 5)` whenever `L ≥ 5` (so 3 for a run of exactly 5). -/
def claimRunContrib (L : ℕ) : ℕ := if 5 ≤ L then penaltyWeight1 + (L - 5) else 0

/-- The contribution the code actually awards to a maximal run of length
`L`: `w1 + 1` when the run reaches 6, plus 1 per further module — i.e.
`w1 + 1 + (L - 6)` for `L ≥ 6` and nothing for `L ≤ 5`. -/
def amendedRunContrib (L : ℕ) : ℕ :=
  if 6 ≤ L then penaltyWeight1 + 1 + (L - 6) else 0

/-- P1 as the claim states it: sum the claimed contribution over the maximal
runs of every column and every row. -/
def claimPenalty1 (m : symbolT) : ℕ :=
  ((List.range m.symbolSize).map (fun x =>
    ((runLengths (m.colList x)).map claimRunContrib).sum)).sum +
  ((List.range m.symbolSize).map (fun y =>
    ((runLengths (m.rowList y)).map claimRunContrib).sum)).sum

/-- The per-step increment of the scan as a function of the new count. -/
def p1StepInc (c : ℕ) : ℕ :=
  if c = 6 then penaltyWeight1 + 1 else if 6 < c then 1 else 0

lemma amendedRunContrib_succ (c : ℕ) :
    amendedRunContrib (c + 1) = amendedRunContrib c + p1StepInc (c + 1) := by
  simp only [amendedRunContrib, p1StepInc, penaltyWeight1]
  split_ifs <;> omega

lemma amendedRunContrib_one : amendedRunContrib 1 = 0 := by
  simp [amendedRunContrib]

lemma p1Scan_continue (last : Bool) (count acc : ℕ) (v : Bool) (t : List Bool)
    (hv : v = last) :
    p1Scan last count acc (v :: t)
      = p1Scan last (count + 1) (acc + p1StepInc (count + 1)) t := by
  show (if v ≠ last then p1Scan v 1 acc t
    else if count + 1 = 6 then p1Scan last (count + 1) (acc + (penaltyWeight1 + 1)) t
    else if count + 1 > 6 then p1Scan last (count + 1) (acc + 1) t
    else p1Scan last (count + 1) acc t) = _
  rw [if_neg (by simp [hv])]
  by_cases h6 : count + 1 = 6
  · rw [if_pos h6]
    have : p1StepInc (count + 1) = penaltyWeight1 + 1 := by simp [p1StepInc, h6]
    rw [this]
  · rw [if_neg h6]
    by_cases h7 : count + 1 > 6
    · rw [if_pos h7]
      have : p1StepInc (count + 1) = 1 := by
        simp only [p1StepInc]
        rw [if_neg h6, if_pos h7]
      rw [this]
    · rw [if_neg h7]
      have : p1StepInc (count + 1) = 0 := by
        simp only [p1StepInc]
        rw [if_neg h6, if_neg h7]
      rw [this]
      simp

lemma p1Scan_newRun (last : Bool) (count acc : ℕ) (v : Bool) (t : List Bool)
    (hv : ¬ v = last) :
    p1Scan last count acc (v :: t) = p1Scan v 1 acc t := by
  show (if v ≠ last then p1Scan v 1 acc t
    else if count + 1 = 6 then p1Scan last (count + 1) (acc + (penaltyWeight1 + 1)) t
    else if count + 1 > 6 then p1Scan last (count + 1) (acc + 1) t
    else p1Scan last (count + 1) acc t) = _
  rw [if_pos (by simp [hv])]

/-- The scan equals the per-run formula, stated additively to stay in `ℕ`:
the scan's pending contribution for the current (partial) run is
`amendedRunContrib count`. -/
lemma p1Scan_eq_runs (rest : List Bool) : ∀ (last : Bool) (count acc : ℕ),
    p1Scan last count acc rest + amendedRunContrib count
      = acc + ((runsAux last count rest).map amendedRunContrib).sum := by
  induction rest with
  | nil =>
      intro last count acc
      show acc + amendedRunContrib count = acc + (amendedRunContrib count + 0)
      omega
  | cons v t ih =>
      intro last count acc
      by_cases hv : v = last
      · rw [p1Scan_continue last count acc v t hv]
        have hruns : runsAux last count (v :: t) = runsAux last (count + 1) t := by
          show (if v = last then runsAux last (count + 1) t
            else count :: runsAux v 1 t) = _
          rw [if_pos hv]
        rw [hruns]
        have hih := ih last (count + 1) (acc + p1StepInc (count + 1))
        have hstep := amendedRunContrib_succ count
        omega
      · rw [p1Scan_newRun last count acc v t hv]
        have hruns : runsAux last count (v :: t) = count :: runsAux v 1 t := by
          show (if v = last then runsAux last (count + 1) t
            else count :: runsAux v 1 t) = _
          rw [if_neg hv]
        rw [hruns, List.map_cons, List.sum_cons]
        have hih := ih v 1 acc
        have h1 := amendedRunContrib_one
        omega

lemma penalty1Line_eq_runs (l : List Bool) :
    penalty1Line l = ((runLengths l).map amendedRunContrib).sum := by
  cases l with
  | nil => rfl
  | cons h t =>
      show p1Scan h 1 0 t = ((runsAux h 1 t).map amendedRunContrib).sum
      have := p1Scan_eq_runs t h 1 0
      rw [amendedRunContrib_one] at this
      omega

/-- C3 counterexample input: a 5×5 symbol (no quiet zone) of all-dark
modules; every row and column is one maximal run of length exactly 5. -/
def allDark5 : symbolT :=
  ⟨List.replicate 5 (List.replicate 5 true), [], 5, 5, 0⟩

/-- C3: the claim says a maximal run of length exactly 5 contributes
`w1 = 3` (so the all-dark 5×5 symbol would score `10 · 3 = 30` under P1);
the code only starts charging at the 6th module of a run, so `penalty1` of
this symbol is 0. -/
theorem c3_penalty1_counterexample :
    allDark5.penalty1 = 0 ∧ claimPenalty1 allDark5 = 30 ∧
    allDark5.penalty1 ≠ claimPenalty1 allDark5 := by
  refine ⟨by decide, by decide, by decide⟩

/-- C3 (amended): for every symbol, penalty rule P1 contributes, for each
maximal same-colour run of length `L` in each row and each column, exactly
`w1 + 1 + (L - 6) = 3 + (L - 5)` when `L ≥ 6` and nothing when `L ≤ 5` (in
particular a run of length exactly 5 contributes 0, not 3). -/
theorem c3_penalty1_amended (m : symbolT) :
    m.penalty1 =
      ((List.range m.symbolSize).map (fun x =>
        ((runLengths (m.colList x)).map amendedRunContrib).sum)).sum +
      ((List.range m.symbolSize).map (fun y =>
        ((runLengths (m.rowList y)).map amendedRunContrib).sum)).sum := by
  unfold symbolT.penalty1
  simp only [penalty1Line_eq_runs]

/-! ### C4 and C5: penalty rule P4 -/

lemma listSum_range (n : ℕ) (f : ℕ → ℕ) :
    ((List.range n).map f).sum = ∑ i ∈ Finset.range n, f i := by
  induction n with
  | zero => simp
  | succ m ih =>
      rw [List.range_succ, List.map_append, List.sum_append, Finset.sum_range_succ, ih]
      simp

/-- The number of dark modules of the symbol area. -/
def darkCount (m : symbolT) : ℕ :=
  ∑ x ∈ Finset.range m.symbolSize, ∑ y ∈ Finset.range m.symbolSize,
    (if m.get x y then 1 else 0)

/-- `penalty4` with its counting loop expressed as the dark-module count:
`w4 · ⌊ |⌊total/2⌋ - darkModules| / ⌊total/20⌋ ⌋`. -/
lemma penalty4_eq_darkCount (m : symbolT) :
    m.penalty4 = penaltyWeight4 *
      ((((m.symbolSize * m.symbolSize / 2 : ℕ) : ℤ) - (darkCount m : ℤ)).natAbs
        / (m.symbolSize * m.symbolSize / 20)) := by
  unfold symbolT.penalty4 darkCount
  simp only [listSum_range]

/-- C4 counterexample input: an all-dark version-1-sized (21×21) symbol. -/
def allDark21 : symbolT :=
  ⟨List.replicate 21 (List.replicate 21 true), [], 21, 21, 0⟩

/-- P4 as the claim states it: `w4 · ⌊(|darkModules·100/total − 50|·2) / 5⌋`. -/
def claimPenalty4 (m : symbolT) : ℕ :=
  penaltyWeight4 *
    ((((darkCount m * 100 / (m.symbolSize * m.symbolSize) : ℕ) : ℤ) - 50).natAbs * 2 / 5)

/-- C4: on the all-dark 21×21 symbol the code computes
`10 · ⌊|220 - 441| / 22⌋ = 100`, while the claim's formula
`w4 · ⌊(|100 - 50|·2)/5⌋` gives `200` (the claimed bucket width is
2.5 percentage points, the code's is 5). -/
theorem c4_penalty4_counterexample :
    allDark21.penalty4 = 100 ∧ claimPenalty4 allDark21 = 200 ∧
    allDark21.penalty4 ≠ claimPenalty4 allDark21 := by
  refine ⟨by decide, by decide, by decide⟩

/-- C4 (amended): for every symbol with `total = symbolSize²` of at least 20
modules (the Go code divides by `⌊total/20⌋` and would panic below that),
`penalty4 = w4 · ⌊ |⌊total/2⌋ − darkModules| / ⌊total/20⌋ ⌋`: the absolute
deviation of the dark-module COUNT from half the total, in buckets of
`⌊total/20⌋` modules (5% of the total), times `w4 = 10`. -/
theorem c4_penalty4_amended (m : symbolT) (h : 20 ≤ m.symbolSize * m.symbolSize) :
    m.penalty4 = penaltyWeight4 *
      ((((m.symbolSize * m.symbolSize / 2 : ℕ) : ℤ) - (darkCount m : ℤ)).natAbs
        / (m.symbolSize * m.symbolSize / 20)) :=
  penalty4_eq_darkCount m

/-- C4 witness: the amended formula evaluated on the all-dark 21×21 symbol. -/
theorem c4_penalty4_witness :
    allDark21.penalty4 = penaltyWeight4 *
      ((((allDark21.symbolSize * allDark21.symbolSize / 2 : ℕ) : ℤ)
        - (darkCount allDark21 : ℤ)).natAbs
        / (allDark21.symbolSize * allDark21.symbolSize / 20)) :=
  c4_penalty4_amended allDark21 (by decide)

/-- Flipping every module of the symbol (the claim's transformation). -/
def flipSymbol (m : symbolT) : symbolT :=
  { m with module := m.module.map (fun row => row.map (fun v => !v)) }

/-- The geometric well-formedness `newSymbol` establishes: the planes are
square of side `size = symbolSize + 2·quietZoneSize`. -/
def wellFormedSymbol (m : symbolT) : Prop :=
  m.size = m.symbolSize + 2 * m.quietZoneSize ∧ m.module.length = m.size ∧
  ∀ row ∈ m.module, row.length = m.size

lemma getD_map_of_lt {α β : Type} (f : α → β) (l : List α) (i : ℕ) (d : β)
    (d' : α) (h : i < l.length) : (l.map f).getD i d = f (l.getD i d') := by
  rw [List.getD_eq_getElem?_getD, List.getElem?_map, List.getElem?_eq_getElem h,
    List.getD_eq_getElem?_getD, List.getElem?_eq_getElem h]
  simp

lemma get_flipSymbol (m : symbolT) (hwf : wellFormedSymbol m) (x y : ℕ)
    (hx : x < m.symbolSize) (hy : y < m.symbolSize) :
    (flipSymbol m).get x y = ! m.get x y := by
  obtain ⟨hsz, hlen, hrow⟩ := hwf
  show ((m.module.map (fun row => row.map (fun v => !v))).getD
    (y + m.quietZoneSize) []).getD (x + m.quietZoneSize) false
    = ! (m.module.getD (y + m.quietZoneSize) []).getD (x + m.quietZoneSize) false
  have hylt : y + m.quietZoneSize < m.module.length := by omega
  rw [getD_map_of_lt _ _ _ _ [] hylt]
  have hmem : m.module.getD (y + m.quietZoneSize) [] ∈ m.module := by
    rw [List.getD_eq_getElem?_getD, List.getElem?_eq_getElem hylt]
    exact List.getElem_mem hylt
  have hxlt : x + m.quietZoneSize < (m.module.getD (y + m.quietZoneSize) []).length := by
    rw [hrow _ hmem]
    omega
  rw [getD_map_of_lt _ _ _ _ false hxlt]

lemma darkCount_flipSymbol (m : symbolT) (hwf : wellFormedSymbol m) :
    darkCount (flipSymbol m) + darkCount m = m.symbolSize * m.symbolSize := by
  unfold darkCount
  have hss : (flipSymbol m).symbolSize = m.symbolSize := rfl
  rw [hss, ← Finset.sum_add_distrib]
  have houter : ∀ x ∈ Finset.range m.symbolSize,
      ((∑ y ∈ Finset.range m.symbolSize, (if (flipSymbol m).get x y then 1 else 0)) +
        ∑ y ∈ Finset.range m.symbolSize, (if m.get x y then 1 else 0)) = m.symbolSize := by
    intro x hx
    rw [← Finset.sum_add_distrib]
    have hinner : ∀ y ∈ Finset.range m.symbolSize,
        ((if (flipSymbol m).get x y then 1 else 0) +
          (if m.get x y then 1 else 0) : ℕ) = 1 := by
      intro y hy
      rw [get_flipSymbol m hwf x y (Finset.mem_range.mp hx) (Finset.mem_range.mp hy)]
      cases m.get x y <;> simp
    rw [Finset.sum_congr rfl hinner, Finset.sum_const, Finset.card_range, smul_eq_mul,
      mul_one]
  rw [Finset.sum_congr rfl houter, Finset.sum_const, Finset.card_range, smul_eq_mul]

/-- C5 counterexample input: a well-formed 21×21 symbol with exactly 242 dark
modules (dark on the first 242 positions in row-major order). -/
def mixed21 : symbolT :=
  ⟨(List.range 21).map (fun y => (List.range 21).map (fun x => decide (y * 21 + x < 242))),
    [], 21, 21, 0⟩

/-- C5: flipping every module is NOT a `penalty4` invariant in general: the
total 441 is odd, so the deviation from `⌊441/2⌋ = 220` changes from 22
(deviation bucket 1, score 10) to 21 (bucket 0, score 0) under the flip. -/
theorem c5_penalty4_flip_counterexample :
    mixed21.penalty4 = 10 ∧ (flipSymbol mixed21).penalty4 = 0 ∧
    (flipSymbol mixed21).penalty4 ≠ mixed21.penalty4 := by
  refine ⟨by decide, by decide, by decide⟩

/-- C5 (amended): for every geometrically well-formed symbol with an EVEN
number of modules (even `symbolSize`), `penalty4` is invariant under
flipping every module.  (For the odd sizes real QR symbols have, the
integer-division asymmetry around `⌊total/2⌋` can change the score, see
`c5_penalty4_flip_counterexample`.) -/
theorem c5_penalty4_flip_amended (m : symbolT) (hwf : wellFormedSymbol m)
    (heven : 2 ∣ m.symbolSize) :
    (flipSymbol m).penalty4 = m.penalty4 := by
  rw [penalty4_eq_darkCount, penalty4_eq_darkCount]
  have hss : (flipSymbol m).symbolSize = m.symbolSize := rfl
  rw [hss]
  have hdc := darkCount_flipSymbol m hwf
  have h2 : 2 ∣ m.symbolSize * m.symbolSize := heven.mul_right _
  congr 2
  omega

/-- C5 witness: the amended theorem applied to an all-dark 6×6 symbol. -/
theorem c5_penalty4_flip_witness :
    (flipSymbol ⟨List.replicate 6 (List.replicate 6 true), [], 6, 6, 0⟩).penalty4
      = (symbolT.mk (List.replicate 6 (List.replicate 6 true)) [] 6 6 0).penalty4 :=
  c5_penalty4_flip_amended ⟨List.replicate 6 (List.replicate 6 true), [], 6, 6, 0⟩
    (by
      refine ⟨rfl, rfl, fun row hr => ?_⟩
      rw [List.eq_of_mem_replicate hr]
      rfl)
    (by norm_num)

/-! ## Segment classifier and data encoder (src/encoder.go) -/

def dataModeNone : ℕ := 1

def dataModeNumeric : ℕ := 2

def dataModeAlphanumeric : ℕ := 4

def dataModeByte : ℕ := 8

/-- A `segment`: data mode and the bytes it covers. -/
structure segmentT where
  dataMode : ℕ
  data : List ℕ
deriving DecidableEq, Repr

/-- The static fields of a `dataEncoder` (encoder.go lines 32-55); the
mutable `data`/`actual`/`optimised` fields are threaded explicitly. -/
structure dataEncoderT where
  minVersion : ℕ
  maxVersion : ℕ
  numericModeIndicator : Bitset
  alphanumericModeIndicator : Bitset
  byteModeIndicator : Bitset
  numNumericCharCountBits : ℕ
  numAlphanumericCharCountBits : ℕ
  numByteCharCountBits : ℕ
deriving DecidableEq, Repr

/-- `newDataEncoder` (encoder.go lines 57-95) over the three
`dataEncoderType` values 0, 1, 2. -/
def newDataEncoder (t : ℕ) : Except String dataEncoderT :=
  if t = 0 then Except.ok
    ⟨1, 9, [false, false, false, true], [false, false, true, false],
      [false, true, false, false], 10, 9, 8⟩
  else if t = 1 then Except.ok
    ⟨10, 26, [false, false, false, true], [false, false, true, false],
      [false, true, false, false], 12, 11, 16⟩
  else if t = 2 then Except.ok
    ⟨27, 40, [false, false, false, true], [false, false, true, false],
      [false, true, false, false], 14, 13, 16⟩
  else Except.error "unknown dataEncoderType"

/-- The per-byte mode classification of `classifyDataModes` (encoder.go
lines 157-165). -/
def classifyByte (v : ℕ) : ℕ :=
  if 0x30 ≤ v ∧ v ≤ 0x39 then dataModeNumeric
  else if v = 0x20 ∨ v = 0x24 ∨ v = 0x25 ∨ v = 0x2a ∨ v = 0x2b ∨ v = 0x2d ∨
    v = 0x2e ∨ v = 0x2f ∨ v = 0x3a ∨ (0x41 ≤ v ∧ v ≤ 0x5a) then dataModeAlphanumeric
  else dataModeByte

/-- The Go slice `data[s:e]`. -/
def dSlice (data : List ℕ) (s e : ℕ) : List ℕ := (data.drop s).take (e - s)

/-- `classifyDataModes` (encoder.go lines 148-185): one pass over the input
producing the runs of identical class (`actual`) and the highest class seen
(`none < numeric < alphanumeric < byte` by their numeric values). -/
def classifyDataModes (data : List ℕ) : List segmentT × ℕ :=
  let st := (List.range data.length).foldl
    (fun (st : List segmentT × ℕ × ℕ × ℕ) i =>
      let v := data.getD i 0
      let newMode := classifyByte v
      let actual := st.1
      let start := st.2.1
      let mode := st.2.2.1
      let highest := st.2.2.2
      let next :=
        if newMode ≠ mode then
          (if i > 0 then (actual ++ [⟨mode, dSlice data start i⟩], i, newMode)
           else (actual, start, newMode))
        else (actual, start, mode)
      (next.1, next.2.1, next.2.2, if newMode > highest then newMode else highest))
    ([], 0, dataModeNone, dataModeNone)
  (st.1 ++ [⟨st.2.2.1, dSlice data st.2.1 data.length⟩], st.2.2.2)

/-- `dataEncoder.modeIndicator` (encoder.go lines 318-329). -/
def modeIndicator (d : dataEncoderT) (dataMode : ℕ) : Except String Bitset :=
  if dataMode = dataModeNumeric then Except.ok d.numericModeIndicator
  else if dataMode = dataModeAlphanumeric then Except.ok d.alphanumericModeIndicator
  else if dataMode = dataModeByte then Except.ok d.byteModeIndicator
  else Except.error "unknown data mode"

/-- `dataEncoder.charCountBits` (encoder.go lines 331-342). -/
def charCountBits (d : dataEncoderT) (dataMode : ℕ) : Except String ℕ :=
  if dataMode = dataModeNumeric then Except.ok d.numNumericCharCountBits
  else if dataMode = dataModeAlphanumeric then Except.ok d.numAlphanumericCharCountBits
  else if dataMode = dataModeByte then Except.ok d.numByteCharCountBits
  else Except.error "unknown data mode"

/-- `dataEncoder.encodedLength` (encoder.go lines 344-382): 4 mode-indicator
bits plus the char-count field plus the mode-specific payload bits; error
when `n` exceeds `2^charCountBits - 1`. -/
def encodedLength (d : dataEncoderT) (dataMode n : ℕ) : Except String ℕ := do
  let mi ← modeIndicator d dataMode
  let ccb ← charCountBits d dataMode
  if n > 2 ^ ccb - 1 then Except.error "length too long to be represented"
  else if dataMode = dataModeNumeric then
    Except.ok (bsLen mi + ccb + 10 * (n / 3) + (if n % 3 ≠ 0 then 1 + 3 * (n % 3) else 0))
  else if dataMode = dataModeAlphanumeric then
    Except.ok (bsLen mi + ccb + 11 * (n / 2) + 6 * (n % 2))
  else if dataMode = dataModeByte then
    Except.ok (bsLen mi + ccb + 8 * n)
  else Except.ok (bsLen mi + ccb)

/-- The inner loop of `optimiseDataModes` (encoder.go lines 192-223): walk
forward from the run after the current one, coalescing while the next run's
class does not widen the current one and the coalesced encoding is strictly
shorter; return the coalesced runs and the remaining ones. -/
def takeCoalesce (d : dataEncoderT) :
    ℕ → ℕ → List segmentT → Except String (List segmentT × List segmentT)
  | _, _, [] => Except.ok ([], [])
  | mode, numChars, next :: rest =>
    if next.dataMode > mode then Except.ok ([], next :: rest)
    else do
      let coalescedLength ← encodedLength d mode (numChars + next.data.length)
      let seperateLength1 ← encodedLength d mode numChars
      let seperateLength2 ← encodedLength d next.dataMode next.data.length
      if coalescedLength < seperateLength1 + seperateLength2 then do
        let tr ← takeCoalesce d mode (numChars + next.data.length) rest
        Except.ok (next :: tr.1, tr.2)
      else Except.ok ([], next :: rest)

/-- `optimiseDataModes` (encoder.go lines 187-237): repeatedly coalesce a
run with the following ones and emit the concatenated segment.  The outer
`for` loop advances by at least one run per iteration, so
`actual.length + 1` rounds of fuel always suffice. -/
def optimiseDataModes (d : dataEncoderT) : ℕ → List segmentT → Except String (List segmentT)
  | 0, _ => Except.error "out of fuel"
  | _ + 1, [] => Except.ok []
  | fuel + 1, s :: rest => do
    let tr ← takeCoalesce d s.dataMode s.data.length rest
    let optimised : segmentT := ⟨s.dataMode, s.data ++ (tr.1.map (fun sg => sg.data)).flatten⟩
    let out ← optimiseDataModes d fuel tr.2
    Except.ok (optimised :: out)

/-- `encodeAlphanumericCharacter` (encoder.go lines 384-415). -/
def encodeAlphanumericCharacter (v : ℕ) : Except String ℕ :=
  if 0x30 ≤ v ∧ v ≤ 0x39 then Except.ok (v - 0x30)
  else if 0x41 ≤ v ∧ v ≤ 0x5a then Except.ok (v - 0x41 + 10)
  else if v = 0x20 then Except.ok 36
  else if v = 0x24 then Except.ok 37
  else if v = 0x25 then Except.ok 38
  else if v = 0x2a then Except.ok 39
  else if v = 0x2b then Except.ok 40
  else if v = 0x2d then Except.ok 41
  else if v = 0x2e then Except.ok 42
  else if v = 0x2f then Except.ok 43
  else if v = 0x3a then Except.ok 44
  else Except.error "non alphanumeric char"

/-- The MSB-first low `numBits` bits of a value (`AppendUint32`'s bit
order, bitset.go lines 78-94). -/
def uintBits (value numBits : ℕ) : List Bool :=
  (List.range numBits).reverse.map (fun i => value.testBit i)

/-- `Bitset.AppendUint32` (bitset.go lines 78-94). -/
def appendUint32 (b : Bitset) (value numBits : ℕ) : Except String Bitset :=
  if numBits > 32 then Except.error "numBits out of range 0-32"
  else Except.ok (b ++ uintBits value numBits)

/-- A numeric digit as the Go byte subtraction `data[i+j] - 0x30` computes
it (byte arithmetic wraps modulo 256). -/
def numericValue (v : ℕ) : ℕ := (v + 256 - 0x30) % 256

/-- The numeric-mode groups of `encodeDataRaw` (encoder.go lines 262-279):
3 digits into 10 bits, a trailing pair into 7, a lone digit into 4. -/
def numericChunks : List ℕ → List (ℕ × ℕ)
  | [] => []
  | a :: b :: c :: rest =>
      (100 * numericValue a + 10 * numericValue b + numericValue c, 10) :: numericChunks rest
  | [a, b] => [(10 * numericValue a + numericValue b, 7)]
  | [a] => [(numericValue a, 4)]

/-- The alphanumeric-mode pairs of `encodeDataRaw` (encoder.go lines
280-306): a pair as `45·v1 + v2` in 11 bits, a lone char in 6 bits. -/
def alphanumericChunks : List ℕ → Except String (List (ℕ × ℕ))
  | [] => Except.ok []
  | a :: b :: rest => do
      let v1 ← encodeAlphanumericCharacter a
      let v2 ← encodeAlphanumericCharacter b
      let out ← alphanumericChunks rest
      Except.ok ((45 * v1 + v2, 11) :: out)
  | [a] => do
      let v1 ← encodeAlphanumericCharacter a
      Except.ok [(v1, 6)]

/-- `dataEncoder.encodeDataRaw` (encoder.go lines 239-316): mode indicator,
char count, then the mode-specific payload of the segment. -/
def encodeDataRaw (d : dataEncoderT) (data : List ℕ) (dataMode : ℕ) (encoded : Bitset) :
    Except String Bitset := do
  let mi ← modeIndicator d dataMode
  let ccb ← charCountBits d dataMode
  let encoded₁ ← appendUint32 (encoded ++ mi) data.length ccb
  if dataMode = dataModeNumeric then
    (numericChunks data).foldlM (fun e (vc : ℕ × ℕ) => appendUint32 e vc.1 vc.2) encoded₁
  else if dataMode = dataModeAlphanumeric then do
    let chunks ← alphanumericChunks data
    chunks.foldlM (fun e (vc : ℕ × ℕ) => appendUint32 e vc.1 vc.2) encoded₁
  else if dataMode = dataModeByte then
    data.foldlM (fun e v => appendByte e v 8) encoded₁
  else Except.ok encoded₁

/-- The `optimizedLength` accumulation of `encode` (encoder.go lines
116-125). -/
def sumEncodedLengths (d : dataEncoderT) (segs : List segmentT) : Except String ℕ :=
  segs.foldlM (fun acc s => do
    let length ← encodedLength d s.dataMode s.data.length
    Except.ok (acc + length)) 0

/-- `dataEncoder.encode` (encoder.go lines 97-146): classify, optimise,
compare against one single segment of the highest required class, then emit
the bits of the chosen plan.  The chosen plan (the final `d.optimised`) is
returned alongside the bit stream. -/
def dEncode (d : dataEncoderT) (data : List ℕ) : Except String (List segmentT × Bitset) :=
  if data.length = 0 then Except.error "no data to encode"
  else do
    let optimised ← optimiseDataModes d ((classifyDataModes data).1.length + 1)
      (classifyDataModes data).1
    let optimizedLength ← sumEncodedLengths d optimised
    let singleByteSegmentLength ← encodedLength d (classifyDataModes data).2 data.length
    let final := if singleByteSegmentLength ≤ optimizedLength
      then [⟨(classifyDataModes data).2, data⟩] else optimised
    let encoded ← final.foldlM (fun e s => encodeDataRaw d s.data s.dataMode e) []
    Except.ok (final, encoded)

lemma exceptBind_ok_iff {α β : Type} (m : Except String α) (f : α → Except String β)
    (r : β) : (m >>= f) = Except.ok r ↔ ∃ a, m = Except.ok a ∧ f a = Except.ok r := by
  cases m with
  | error e =>
      constructor
      · intro h
        exact absurd h (by simp [Bind.bind, Except.bind])
      · intro ⟨a, ha, _⟩
        simp at ha
  | ok a =>
      constructor
      · intro h
        exact ⟨a, rfl, h⟩
      · intro ⟨a', ha, hf⟩
        obtain rfl : a = a' := by simpa using ha
        exact hf

/-- C6: whenever `dataEncoder.encode` succeeds, the plan it emits is the
greedily coalesced plan REPLACED by the single segment of class
`highestRequiredMode` covering the whole input exactly when that single
segment's encoded length is less than or equal to the coalesced plan's total
encoded length. -/
theorem c6_single_segment_fallback (d : dataEncoderT) (data : List ℕ)
    (plan : List segmentT) (enc : Bitset)
    (h : dEncode d data = Except.ok (plan, enc)) :
    ∃ optimised optLen singleLen,
      optimiseDataModes d ((classifyDataModes data).1.length + 1) (classifyDataModes data).1
        = Except.ok optimised ∧
      sumEncodedLengths d optimised = Except.ok optLen ∧
      encodedLength d (classifyDataModes data).2 data.length = Except.ok singleLen ∧
      plan = (if singleLen ≤ optLen
        then [⟨(classifyDataModes data).2, data⟩] else optimised) := by
  unfold dEncode at h
  split at h
  · simp at h
  · rw [exceptBind_ok_iff] at h
    obtain ⟨optimised, hopt, h⟩ := h
    rw [exceptBind_ok_iff] at h
    obtain ⟨optLen, hlen, h⟩ := h
    rw [exceptBind_ok_iff] at h
    obtain ⟨singleLen, hsingle, h⟩ := h
    rw [exceptBind_ok_iff] at h
    obtain ⟨encoded, henc, h⟩ := h
    refine ⟨optimised, optLen, singleLen, hopt, hlen, hsingle, ?_⟩
    have := (Except.ok.injEq _ _).mp h.symm
    exact ((Prod.mk.injEq _ _ _ _).mp this.symm |>.1).symm

/-- C6 witness: the theorem applied to the type-1-to-9 encoder on the input
`"A1"`; the coalesced plan is one alphanumeric segment of both bytes, and
the single-segment fallback (same class, same length 24) replaces it. -/
theorem c6_single_segment_fallback_witness :
    ∃ optimised optLen singleLen,
      optimiseDataModes ⟨1, 9, [false, false, false, true], [false, false, true, false],
          [false, true, false, false], 10, 9, 8⟩
        ((classifyDataModes [65, 49]).1.length + 1) (classifyDataModes [65, 49]).1
        = Except.ok optimised ∧
      sumEncodedLengths ⟨1, 9, [false, false, false, true], [false, false, true, false],
          [false, true, false, false], 10, 9, 8⟩ optimised = Except.ok optLen ∧
      encodedLength ⟨1, 9, [false, false, false, true], [false, false, true, false],
          [false, true, false, false], 10, 9, 8⟩ (classifyDataModes [65, 49]).2
          (List.length [65, 49]) = Except.ok singleLen ∧
      [segmentT.mk 4 [65, 49]] = (if singleLen ≤ optLen
        then [⟨(classifyDataModes [65, 49]).2, [65, 49]⟩] else optimised) :=
  c6_single_segment_fallback
    ⟨1, 9, [false, false, false, true], [false, false, true, false],
      [false, true, false, false], 10, 9, 8⟩
    [65, 49] [⟨4, [65, 49]⟩]
    [false, false, true, false, false, false, false, false, false, false, false, true,
      false, false, false, true, true, true, false, false, false, false, true, true]
    (by rfl)

/-! ## The public constructor `New` (src/qrcode.go lines 48-99) -/

/-- The encoder-selection loop of `New`: try the three `dataEncoderType`s in
order; on an encoding error remember it and continue; on success ask
`chooseQRCodeVersion` (absent from src, abstracted as the `choose`
parameter) for a version and stop at the first hit.  After the loop, a
remembered error from the LAST attempt is returned first, then the
"content too long" error. -/
def qrNewLoop (choose : ℕ → dataEncoderT → ℕ → Option ℕ) (level : ℕ)
    (content : List ℕ) : List ℕ → Option String →
    Except String (dataEncoderT × Bitset × ℕ)
  | [], err =>
    match err with
    | some e => Except.error e
    | none => Except.error "content too long to encode"
  | t :: rest, _ =>
    match newDataEncoder t with
    | Except.error e => Except.error e
    | Except.ok encoder =>
      match dEncode encoder content with
      | Except.error e => qrNewLoop choose level content rest (some e)
      | Except.ok res =>
        match choose level encoder (bsLen res.2) with
        | some version => Except.ok (encoder, res.2, version)
        | none => qrNewLoop choose level content rest none

/-- `New` (qrcode.go lines 48-99), up to the construction of the `QRCode`
value: returns the chosen encoder, the encoded bits and the version, or the
error. -/
def qrNew (choose : ℕ → dataEncoderT → ℕ → Option ℕ) (level : ℕ)
    (content : List ℕ) : Except String (dataEncoderT × Bitset × ℕ) :=
  qrNewLoop choose level content [0, 1, 2] none

/-- C9: for every recovery level (and every version-choosing function —
`chooseQRCodeVersion`/version.go is absent from src and never reached on
empty input), `New` with empty content returns the `no data to encode`
error and produces no QRCode value. -/
theorem c9_empty_input (choose : ℕ → dataEncoderT → ℕ → Option ℕ) (level : ℕ) :
    qrNew choose level [] = Except.error "no data to encode" := rfl

/-! ## The encode driver (src/qrcode.go lines 278-456) -/

/-- Modelled from the spec: version.go is absent from src;
`numTerminatorBitsRequired(encodedLen) = min(4, numDataBits - encodedLen)`
(spec section 4.5). -/
def numTerminatorBitsRequired (numDataBits encodedLen : ℕ) : ℕ :=
  min 4 (numDataBits - encodedLen)

/-- Modelled from the spec: `numBitsToPadToCodeword(len) = (8 - len%8) % 8`
(spec section 4.5). -/
def numBitsToPadToCodeword (len : ℕ) : ℕ := (8 - len % 8) % 8

/-- The state of a `QRCode` value that `encode` reads and writes: the data
buffer, the chosen symbol and mask, and the version's `numDataBits` (the
version table is absent from src; only the value the driver reads is
kept). -/
structure QRState where
  numDataBits : ℕ
  data : Bitset
  symbol : Option symbolT
  mask : ℕ
deriving Repr

def padCodeword0 : Bitset := [true, true, true, false, true, true, false, false]

def padCodeword1 : Bitset := [false, false, false, true, false, false, false, true]

/-- `QRCode.addPadding` (qrcode.go lines 424-456): nothing to do when the
buffer is exactly full; otherwise pad with zeros to the codeword boundary,
append the pad codewords `0b11101100`/`0b00010001` alternately while at
least 8 bits of room remain (`(numDataBits - len)/8` iterations of the Go
`for` loop, alternation by iteration parity), and check the exact-fill
invariant. -/
def addPaddingFill (numDataBits : ℕ) (data : Bitset) : Bitset :=
  let data₁ := data ++ List.replicate (numBitsToPadToCodeword (bsLen data)) false
  (List.range ((numDataBits - bsLen data₁) / 8)).foldl
    (fun d i => d ++ (if i % 2 = 0 then padCodeword0 else padCodeword1)) data₁

def addPadding (numDataBits : ℕ) (data : Bitset) : Except String Bitset :=
  if bsLen data = numDataBits then Except.ok data
  else if bsLen (addPaddingFill numDataBits data) ≠ numDataBits then
    Except.error "BUG: got len"
  else Except.ok (addPaddingFill numDataBits data)

/-- One iteration of the mask loop of `encode` (qrcode.go lines 296-319):
build the candidate symbol for this mask (`buildRegularSymbol` lives in
regular_symbol.go, absent from src, and is abstracted as `build`), fail on
any empty module, and adopt the candidate exactly when no symbol is chosen
yet or its penalty is strictly below the best so far. -/
def maskStep (build : ℕ → Bitset → Except String symbolT) (encoded : Bitset)
    (st : Option symbolT × ℕ × ℕ) (mask : ℕ) :
    Except String (Option symbolT × ℕ × ℕ) := do
  let s ← build mask encoded
  if s.numEmptyModules ≠ 0 then Except.error "bug: numEmptyModules is not 0"
  else if st.1.isNone ∨ s.penaltyScore < st.2.2 then
    Except.ok (some s, mask, s.penaltyScore)
  else Except.ok st

/-- `QRCode.encode` (qrcode.go lines 278-322), with `encodeBlocks`
abstracted as `blocks` (it reads the version block table of the absent
version.go; only its determinism matters to the claims) and
`buildRegularSymbol` abstracted as `build`: append the required terminator
bits, pad, encode the blocks, and run the eight-mask selection loop with
`penalty` initialised to 0. -/
def qEncode (blocks : Bitset → Except String Bitset)
    (build : ℕ → Bitset → Except String symbolT) (q : QRState) :
    Except String QRState := do
  let data₁ := q.data ++ List.replicate
    (numTerminatorBitsRequired q.numDataBits (bsLen q.data)) false
  let data₂ ← addPadding q.numDataBits data₁
  let encoded ← blocks data₂
  let st ← (List.range 8).foldlM (maskStep build encoded) (q.symbol, q.mask, 0)
  Except.ok { q with data := data₂, symbol := st.1, mask := st.2.1 }

lemma addPadding_ok_len (nd : ℕ) (d d' : Bitset)
    (h : addPadding nd d = Except.ok d') : bsLen d' = nd := by
  unfold addPadding at h
  split at h
  · obtain rfl : d = d' := by simpa using h
    assumption
  · split at h
    · simp at h
    · obtain rfl : addPaddingFill nd d = d' := by simpa using h
      omega

lemma maskStep_ok_candidate (build : ℕ → Bitset → Except String symbolT)
    (encoded : Bitset) (st st' : Option symbolT × ℕ × ℕ) (mask : ℕ)
    (h : maskStep build encoded st mask = Except.ok st') :
    ∃ c, build mask encoded = Except.ok c ∧ c.numEmptyModules = 0 := by
  unfold maskStep at h
  rw [exceptBind_ok_iff] at h
  obtain ⟨c, hc, h⟩ := h
  refine ⟨c, hc, ?_⟩
  by_contra hne
  rw [if_pos hne] at h
  simp at h

lemma maskFold_steps_ok (build : ℕ → Bitset → Except String symbolT)
    (encoded : Bitset) : ∀ (l : List ℕ) (st r : Option symbolT × ℕ × ℕ),
    l.foldlM (maskStep build encoded) st = Except.ok r →
    ∀ mask ∈ l, ∃ c, build mask encoded = Except.ok c ∧ c.numEmptyModules = 0 := by
  intro l
  induction l with
  | nil =>
      intro st r _ mask hm
      simp at hm
  | cons x t ih =>
      intro st r h mask hm
      rw [List.foldlM_cons, exceptBind_ok_iff] at h
      obtain ⟨st', hstep, hrest⟩ := h
      rcases List.mem_cons.mp hm with rfl | hmt
      · exact maskStep_ok_candidate build encoded st st' mask hstep
      · exact ih st' r hrest mask hmt

lemma maskStep_preserves_some (build : ℕ → Bitset → Except String symbolT)
    (encoded : Bitset) (st st' : Option symbolT × ℕ × ℕ) (mask : ℕ)
    (h : maskStep build encoded st mask = Except.ok st') (hs : st.1.isSome) :
    st'.1.isSome := by
  unfold maskStep at h
  rw [exceptBind_ok_iff] at h
  obtain ⟨c, _, h⟩ := h
  split at h
  · simp at h
  · split at h
    · obtain rfl : _ = st' := by simpa using h
      rfl
    · obtain rfl : st = st' := by simpa using h
      exact hs

lemma maskStep_some_after (build : ℕ → Bitset → Except String symbolT)
    (encoded : Bitset) (st st' : Option symbolT × ℕ × ℕ) (mask : ℕ)
    (h : maskStep build encoded st mask = Except.ok st') : st'.1.isSome := by
  unfold maskStep at h
  rw [exceptBind_ok_iff] at h
  obtain ⟨c, _, h⟩ := h
  split at h
  · simp at h
  · split at h
    · obtain rfl : _ = st' := by simpa using h
      rfl
    · obtain rfl : st = st' := by simpa using h
      rename_i hcond
      cases hst : st.1 with
      | none => exact absurd (Or.inl (by rw [hst]; rfl)) hcond
      | some v => rfl

lemma maskFold_some (build : ℕ → Bitset → Except String symbolT)
    (encoded : Bitset) : ∀ (l : List ℕ) (st r : Option symbolT × ℕ × ℕ),
    l.foldlM (maskStep build encoded) st = Except.ok r → l ≠ [] → r.1.isSome := by
  intro l
  induction l with
  | nil =>
      intro st r _ hne
      exact absurd rfl hne
  | cons x t ih =>
      intro st r h _
      rw [List.foldlM_cons, exceptBind_ok_iff] at h
      obtain ⟨st', hstep, hrest⟩ := h
      have hsome := maskStep_some_after build encoded st st' x hstep
      cases t with
      | nil =>
          obtain rfl : st' = r := by
            have : (pure st' : Except String (Option symbolT × ℕ × ℕ)) = Except.ok st' := rfl
            rw [List.foldlM_nil, this] at hrest
            simpa using hrest
          exact hsome
      | cons y ts =>
          exact ih st' r hrest (by simp)

lemma maskStep_no_update (build : ℕ → Bitset → Except String symbolT)
    (encoded : Bitset) (s : symbolT) (m mask : ℕ) (c : symbolT)
    (hc : build mask encoded = Except.ok c) (hempty : c.numEmptyModules = 0) :
    maskStep build encoded (some s, m, 0) mask = Except.ok (some s, m, 0) := by
  unfold maskStep
  rw [hc]
  simp only [exceptBind_ok]
  rw [if_neg (by omega), if_neg (by simp)]

lemma maskFold_no_update (build : ℕ → Bitset → Except String symbolT)
    (encoded : Bitset) : ∀ (l : List ℕ) (s : symbolT) (m : ℕ),
    (∀ mask ∈ l, ∃ c, build mask encoded = Except.ok c ∧ c.numEmptyModules = 0) →
    l.foldlM (maskStep build encoded) (some s, m, 0) = Except.ok (some s, m, 0) := by
  intro l
  induction l with
  | nil =>
      intro s m _
      rfl
  | cons x t ih =>
      intro s m hl
      obtain ⟨c, hc, hempty⟩ := hl x (by simp)
      rw [List.foldlM_cons, maskStep_no_update build encoded s m x c hc hempty,
        exceptBind_ok]
      exact ih s m (fun mask hm => hl mask (by simp [hm]))

/-- C10: the internal `encode` step is idempotent: if a first run succeeds
(appending terminator bits and padding, and choosing a symbol and mask),
running it again on the resulting state returns that state unchanged — same
data buffer, symbol and mask — so repeated renders of the same QRCode value
yield an identical bitmap.  `encodeBlocks` and `buildRegularSymbol` are
universally quantified: the theorem holds for every such pair of
functions. -/
theorem c10_encode_idempotent (blocks : Bitset → Except String Bitset)
    (build : ℕ → Bitset → Except String symbolT) (q q₁ : QRState)
    (h : qEncode blocks build q = Except.ok q₁) :
    qEncode blocks build q₁ = Except.ok q₁ := by
  unfold qEncode at h
  rw [exceptBind_ok_iff] at h
  obtain ⟨d₂, hpad, h⟩ := h
  rw [exceptBind_ok_iff] at h
  obtain ⟨enc, hblocks, h⟩ := h
  rw [exceptBind_ok_iff] at h
  obtain ⟨st, hfold, h⟩ := h
  obtain rfl : { q with data := d₂, symbol := st.1, mask := st.2.1 } = q₁ := by
    simpa using h
  have hlen : bsLen d₂ = q.numDataBits := addPadding_ok_len _ _ _ hpad
  have hsome : st.1.isSome := maskFold_some build enc _ _ _ hfold (by simp)
  obtain ⟨s, hs⟩ := Option.isSome_iff_exists.mp hsome
  have hsteps := maskFold_steps_ok build enc _ _ _ hfold
  unfold qEncode
  have hterm : numTerminatorBitsRequired q.numDataBits (bsLen d₂) = 0 := by
    unfold numTerminatorBitsRequired
    omega
  simp only [hterm, List.replicate_zero, List.append_nil]
  have hpad₂ : addPadding q.numDataBits d₂ = Except.ok d₂ := by
    unfold addPadding
    rw [if_pos hlen]
  rw [hpad₂, exceptBind_ok, hblocks, exceptBind_ok, hs,
    maskFold_no_update build enc (List.range 8) s st.2.1 hsteps, exceptBind_ok]

/-- C10 witness: a concrete state (zero data bits, trivial blocks and
builder) on which `encode` succeeds; the theorem then re-runs it. -/
theorem c10_encode_idempotent_witness :
    qEncode (fun d => Except.ok d) (fun _ _ => Except.ok ⟨[], [], 0, 0, 0⟩)
      ⟨0, [], some ⟨[], [], 0, 0, 0⟩, 0⟩
      = Except.ok ⟨0, [], some ⟨[], [], 0, 0, 0⟩, 0⟩ :=
  c10_encode_idempotent (fun d => Except.ok d) (fun _ _ => Except.ok ⟨[], [], 0, 0, 0⟩)
    ⟨0, [], none, 0⟩ ⟨0, [], some ⟨[], [], 0, 0, 0⟩, 0⟩ rfl

/-- The mask-selection loop invariant: folding `maskStep` over a strictly
ascending list of masks, starting from an adopted candidate, ends in the
candidate of the least mask attaining the minimal penalty among the start
mask and the processed ones. -/
lemma maskFold_selects (build : ℕ → Bitset → Except String symbolT)
    (encoded : Bitset) (cand : ℕ → symbolT) :
    ∀ (l : List ℕ) (m₀ : ℕ), (m₀ :: l).Pairwise (· < ·) →
    (∀ mask ∈ l, build mask encoded = Except.ok (cand mask) ∧
      (cand mask).numEmptyModules = 0) →
    ∀ r, l.foldlM (maskStep build encoded)
      (some (cand m₀), m₀, (cand m₀).penaltyScore) = Except.ok r →
    ∃ m', r = (some (cand m'), m', (cand m').penaltyScore) ∧ (m' = m₀ ∨ m' ∈ l) ∧
      (m' ≠ m₀ → (cand m').penaltyScore < (cand m₀).penaltyScore) ∧
      ∀ x, (x = m₀ ∨ x ∈ l) →
        (cand m').penaltyScore ≤ (cand x).penaltyScore ∧
        (x < m' → (cand m').penaltyScore < (cand x).penaltyScore) := by
  intro l
  induction l with
  | nil =>
      intro m₀ _ _ r hfold
      have hr : r = (some (cand m₀), m₀, (cand m₀).penaltyScore) := by
        have hpure : (pure (some (cand m₀), m₀, (cand m₀).penaltyScore) :
            Except String (Option symbolT × ℕ × ℕ)) = Except.ok _ := rfl
        rw [List.foldlM_nil, hpure] at hfold
        simpa using hfold.symm
      refine ⟨m₀, hr, Or.inl rfl, fun hne => absurd rfl hne, ?_⟩
      intro x hx
      rcases hx with rfl | hx
      · exact ⟨le_refl _, fun hlt => absurd hlt (by omega)⟩
      · simp at hx
  | cons hm t ih =>
      intro m₀ hpw hl r hfold
      rw [List.pairwise_cons] at hpw
      obtain ⟨hm₀lt, hpw'⟩ := hpw
      have hm₀hm : m₀ < hm := hm₀lt hm (by simp)
      obtain ⟨hbhm, hehm⟩ := hl hm (by simp)
      rw [List.foldlM_cons] at hfold
      by_cases hlt : (cand hm).penaltyScore < (cand m₀).penaltyScore
      · have hstep : maskStep build encoded
            (some (cand m₀), m₀, (cand m₀).penaltyScore) hm
            = Except.ok (some (cand hm), hm, (cand hm).penaltyScore) := by
          unfold maskStep
          rw [hbhm]
          simp only [exceptBind_ok]
          rw [if_neg (by omega), if_pos (Or.inr hlt)]
        rw [hstep, exceptBind_ok] at hfold
        obtain ⟨m', hr, hmem, hne, hopt⟩ := ih hm hpw'
          (fun mask hmm => hl mask (by simp [hmm])) r hfold
        have hlem' : (cand m').penaltyScore ≤ (cand hm).penaltyScore :=
          (hopt hm (Or.inl rfl)).1
        refine ⟨m', hr, Or.inr (by rcases hmem with rfl | hmm <;> simp_all), ?_, ?_⟩
        · intro _
          exact lt_of_le_of_lt hlem' hlt
        · intro x hx
          rcases hx with rfl | hx
          · exact ⟨le_of_lt (lt_of_le_of_lt hlem' hlt),
              fun _ => lt_of_le_of_lt hlem' hlt⟩
          · rcases List.mem_cons.mp hx with rfl | hxt
            · exact hopt x (Or.inl rfl)
            · exact hopt x (Or.inr hxt)
      · have hstep : maskStep build encoded
            (some (cand m₀), m₀, (cand m₀).penaltyScore) hm
            = Except.ok (some (cand m₀), m₀, (cand m₀).penaltyScore) := by
          unfold maskStep
          rw [hbhm]
          simp only [exceptBind_ok]
          rw [if_neg (by omega), if_neg (by simp [hlt])]
        rw [hstep, exceptBind_ok] at hfold
        have hpwt : (m₀ :: t).Pairwise (· < ·) := by
          rw [List.pairwise_cons]
          exact ⟨fun a ha => hm₀lt a (by simp [ha]), (List.pairwise_cons.mp hpw').2⟩
        obtain ⟨m', hr, hmem, hne, hopt⟩ := ih m₀ hpwt
          (fun mask hmm => hl mask (by simp [hmm])) r hfold
        refine ⟨m', hr, by rcases hmem with rfl | hmm <;> simp_all, hne, ?_⟩
        intro x hx
        rcases hx with rfl | hx
        · exact hopt x (Or.inl rfl)
        · rcases List.mem_cons.mp hx with rfl | hxt
          · have hle : (cand m').penaltyScore ≤ (cand m₀).penaltyScore :=
              (hopt m₀ (Or.inl rfl)).1
            refine ⟨le_trans hle (by omega), ?_⟩
            intro hxm
            have hm'ne : m' ≠ m₀ := by omega
            exact lt_of_lt_of_le (hne hm'ne) (by omega)
          · exact hopt x (Or.inr hxt)

/-- C2: whenever `encode` succeeds on a fresh state (no symbol chosen yet),
the recorded mask minimises the four-rule `penaltyScore` over the eight
candidate symbols for masks 0..7, and among the masks attaining the minimum
the smallest mask number is selected (the loop only replaces the incumbent
on STRICTLY smaller penalty).  `encodeBlocks` and `buildRegularSymbol`
(files absent from src) are abstracted: `cand` names the candidate symbols
the builder returns for the run's encoded bits. -/
theorem c2_mask_selection (blocks : Bitset → Except String Bitset)
    (build : ℕ → Bitset → Except String symbolT) (q q₁ : QRState)
    (d₂ enc : Bitset) (cand : ℕ → symbolT)
    (hsym : q.symbol = none)
    (hpad : addPadding q.numDataBits (q.data ++ List.replicate
      (numTerminatorBitsRequired q.numDataBits (bsLen q.data)) false) = Except.ok d₂)
    (hblocks : blocks d₂ = Except.ok enc)
    (hcand : ∀ mask, mask < 8 → build mask enc = Except.ok (cand mask))
    (hempty : ∀ mask, mask < 8 → (cand mask).numEmptyModules = 0)
    (hrun : qEncode blocks build q = Except.ok q₁) :
    q₁.mask < 8 ∧ q₁.symbol = some (cand q₁.mask) ∧
    (∀ mask, mask < 8 → (cand q₁.mask).penaltyScore ≤ (cand mask).penaltyScore) ∧
    (∀ mask, mask < q₁.mask →
      (cand q₁.mask).penaltyScore < (cand mask).penaltyScore) := by
  unfold qEncode at hrun
  rw [exceptBind_ok_iff] at hrun
  obtain ⟨d₂', hpad', hrun⟩ := hrun
  obtain rfl : d₂ = d₂' := by simpa using hpad.symm.trans hpad'
  rw [exceptBind_ok_iff] at hrun
  obtain ⟨enc', hblocks', hrun⟩ := hrun
  obtain rfl : enc = enc' := by simpa using hblocks.symm.trans hblocks'
  rw [exceptBind_ok_iff] at hrun
  obtain ⟨st, hfold, hback⟩ := hrun
  obtain rfl : { q with data := d₂, symbol := st.1, mask := st.2.1 } = q₁ := by
    simpa using hback
  have hrange : List.range 8 = 0 :: [1, 2, 3, 4, 5, 6, 7] := rfl
  rw [hrange, List.foldlM_cons] at hfold
  have hstep0 : maskStep build enc (q.symbol, q.mask, 0) 0
      = Except.ok (some (cand 0), 0, (cand 0).penaltyScore) := by
    unfold maskStep
    rw [hcand 0 (by omega)]
    simp only [exceptBind_ok]
    rw [if_neg (by have := hempty 0 (by omega); omega),
      if_pos (Or.inl (by rw [hsym]; rfl))]
  rw [hstep0, exceptBind_ok] at hfold
  obtain ⟨m', hr, hmem, _, hopt⟩ := maskFold_selects build enc cand
    [1, 2, 3, 4, 5, 6, 7] 0 (by decide)
    (fun mask hmm => ⟨hcand mask (by simp at hmm; omega),
      hempty mask (by simp at hmm; omega)⟩) st hfold
  have hm8 : ∀ x : ℕ, (x = 0 ∨ x ∈ [1, 2, 3, 4, 5, 6, 7]) ↔ x < 8 := by
    intro x
    simp
    omega
  have hq1mask : ({ q with data := d₂, symbol := st.1, mask := st.2.1 } : QRState).mask
      = m' := by
    rw [hr]
  have hq1sym : ({ q with data := d₂, symbol := st.1, mask := st.2.1 } : QRState).symbol
      = some (cand m') := by
    rw [hr]
  rw [hq1mask, hq1sym]
  refine ⟨(hm8 m').mp hmem, rfl, ?_, ?_⟩
  · intro mask hmask
    exact (hopt mask ((hm8 mask).mpr hmask)).1
  · intro mask hmask
    have hmask8 : mask < 8 := by
      have := (hm8 m').mp hmem
      omega
    exact (hopt mask ((hm8 mask).mpr hmask8)).2 hmask

/-- C2 witness: the theorem applied at a concrete run (zero data bits,
trivial block encoder, and a builder returning the empty symbol for every
mask); the selected mask is 0. -/
theorem c2_mask_selection_witness :
    (0 : ℕ) < 8 ∧
    (some (symbolT.mk [] [] 0 0 0) : Option symbolT) = some (symbolT.mk [] [] 0 0 0) ∧
    (∀ mask, mask < 8 → (symbolT.mk [] [] 0 0 0).penaltyScore
      ≤ (symbolT.mk [] [] 0 0 0).penaltyScore) ∧
    (∀ mask, mask < 0 → (symbolT.mk [] [] 0 0 0).penaltyScore
      < (symbolT.mk [] [] 0 0 0).penaltyScore) :=
  c2_mask_selection (fun d => Except.ok d)
    (fun _ _ => Except.ok ⟨[], [], 0, 0, 0⟩)
    ⟨0, [], none, 0⟩ ⟨0, [], some ⟨[], [], 0, 0, 0⟩, 0⟩ [] []
    (fun _ => ⟨[], [], 0, 0, 0⟩)
    rfl rfl rfl (fun _ _ => rfl) (fun _ _ => rfl) rfl
